import Mathlib

/-!
# Verification of the block/perimeter pipeline of `map_model/src/objects/block.rs`

This file gives a shallow embedding of the perimeter-tracing, dead-end
collapsing, merging, partitioning, coloring and polygon-building pipeline of
the repository, and proves (or refutes) the specification's claims about it.

Conventions of the embedding:
* `RoadID` is `Nat`; a `RoadSideID` is a road plus a `SideOfRoad`.
* Rust `Vec` becomes `List` (push = append at the end, pop = `getLast?` /
  `dropLast`, `rotate_left 1` = `List.rotate · 1`).
* `BTreeSet<RoadID>` / `HashSet` become `Finset Nat`; the source only ever
  uses them through membership, cardinality and set-union, so iteration
  order never matters.
* A Rust panic (failed `assert!`, `unwrap` of `None`, out-of-bounds index)
  and a non-terminating `while`/`loop` are both modelled as `Option.none`.
  In particular the unbounded rotation loops (`while … { rotate_left(1) }`)
  are modelled by searching the first of the `n` possible rotations of an
  `n`-element list that exits the loop; if none of them exits, the Rust
  loop runs forever and the embedding returns `none`.
* The road-graph query surface (the `Map` type) is external input data for
  the algorithms here; it is embedded as a structure of query functions,
  matching the spec's description of it as a read-only collaborator.
-/

inductive SideOfRoad where
  | Right : SideOfRoad
  | Left : SideOfRoad
deriving DecidableEq, Repr

structure RoadSideID where
  road : Nat
  side : SideOfRoad
deriving DecidableEq, Repr

/-- `Perimeter` from the source: an ordered closed walk of road sides plus the
set of interior roads. -/
structure Perimeter where
  roads : List RoadSideID
  interior : Finset Nat
deriving DecidableEq

instance : Inhabited Perimeter := ⟨⟨[], ∅⟩⟩

instance {ε α : Type} [DecidableEq ε] [DecidableEq α] : DecidableEq (Except ε α)
  | Except.ok x, Except.ok y =>
    if h : x = y then Decidable.isTrue (by rw [h])
    else Decidable.isFalse (fun hc => h (Except.ok.inj hc))
  | Except.ok _, Except.error _ => Decidable.isFalse (fun hc => Except.noConfusion hc)
  | Except.error _, Except.ok _ => Decidable.isFalse (fun hc => Except.noConfusion hc)
  | Except.error x, Except.error y =>
    if h : x = y then Decidable.isTrue (by rw [h])
    else Decidable.isFalse (fun hc => h (Except.error.inj hc))

/-- The set of roads appearing in the boundary sequence. -/
def boundaryRoads (p : Perimeter) : Finset Nat :=
  (p.roads.map RoadSideID.road).toFinset

/-- The boundary without the closing duplicate (the "logical" loop the code
works with after `undo_invariant`). -/
def logicalRoads (p : Perimeter) : List RoadSideID :=
  p.roads.dropLast

/-- Number of occurrences of road `r` in the logical boundary of `p`. -/
def countRoad (p : Perimeter) (r : Nat) : Nat :=
  ((logicalRoads p).map RoadSideID.road).count r

/-- The closed-form invariant: first element equals last element (and there are
at least the two entries that a stored closed loop always has). -/
def ClosedLoop (p : Perimeter) : Prop :=
  2 ≤ p.roads.length ∧ p.roads.head? = p.roads.getLast?

instance (p : Perimeter) : Decidable (ClosedLoop p) := by
  unfold ClosedLoop; infer_instance

/-- The claimed invariant: interior roads are disjoint from boundary roads. -/
def InteriorDisjoint (p : Perimeter) : Prop :=
  p.interior ∩ boundaryRoads p = ∅

instance (p : Perimeter) : Decidable (InteriorDisjoint p) := by
  unfold InteriorDisjoint; infer_instance

/-- `Perimeter::undo_invariant`: pop the closing duplicate, asserting the first
and the popped last element agree.  A failed assertion (or popping an empty
vector) is a panic, i.e. `none`. -/
def undoInvariant (l : List RoadSideID) : Option (List RoadSideID) :=
  match l.head? with
  | none => none
  | some x => if l.getLast? = some x then some l.dropLast else none

/-- `Perimeter::restore_invariant`: push a copy of the first element (panics on
an empty vector). -/
def restoreInvariant (l : List RoadSideID) : Option (List RoadSideID) :=
  match l.head? with
  | none => none
  | some x => some (l ++ [x])

/-- Loop condition of the seam rotation in `collapse_deadends`:
`roads[0].road == roads.last().road`.  Reading from an empty vector panics in
Rust; returning `true` here makes `rotateWhile` yield `none` in that case. -/
def seamCond (l : List RoadSideID) : Bool :=
  match l.head?, l.getLast? with
  | some a, some b => a.road == b.road
  | _, _ => true

/-- A `while cond { roads.rotate_left(1) }` loop.  Rotating an `n`-element list
`n` times is the identity, so the loop exits iff one of the first `n` rotations
falsifies `cond`; otherwise the Rust loop runs forever (`none`). -/
def rotateWhile (cond : List RoadSideID → Bool) (l : List RoadSideID) :
    Option (List RoadSideID) :=
  ((List.range l.length).find? (fun k => !cond (l.rotate k))).map (fun k => l.rotate k)

/-- One step of the scan in `collapse_deadends`: if the incoming entry
references the same road as the last kept entry, drop that pair and record the
road as interior; otherwise keep the entry. -/
def collapseStep (st : List RoadSideID × Finset Nat) (id : RoadSideID) :
    List RoadSideID × Finset Nat :=
  match st.1.getLast? with
  | some prev =>
      if prev.road = id.road then (st.1.dropLast, insert id.road st.2)
      else (st.1 ++ [id], st.2)
  | none => (st.1 ++ [id], st.2)

/-- `Perimeter::collapse_deadends`. -/
def collapse_deadends (p : Perimeter) : Option Perimeter := do
  let l0 ← undoInvariant p.roads
  let l1 ← rotateWhile seamCond l0
  let st := l1.foldl collapseStep ([], p.interior)
  let r ← restoreInvariant st.1
  pure ⟨r, st.2⟩

/-- Loop condition of the rotations in `try_to_merge`:
`common.contains(roads[0].road) || !common.contains(roads.last().road)`. -/
def mergeRotCond (common : Finset Nat) (l : List RoadSideID) : Bool :=
  match l.head?, l.getLast? with
  | some a, some b => decide (a.road ∈ common) || !decide (b.road ∈ common)
  | _, _ => true

/-- The guarded rotation of `try_to_merge`: "if the entire perimeter is
surrounded by the other, then no rotation needed", otherwise rotate until all
overlapping roads sit at the end of the list. -/
def maybeRotate (common : Finset Nat) (l : List RoadSideID) : Option (List RoadSideID) :=
  if l.length = common.card then some l else rotateWhile (mergeRotCond common) l

/-- `Perimeter::try_to_merge` (the `debug_failures` printing has no effect on
the data and is dropped).  Returns `(merged?, self, other)`; on success the
`other` perimeter is emptied exactly as `append` does in the source. -/
def tryToMerge (a b : Perimeter) : Option (Bool × Perimeter × Perimeter) := do
  let u1 ← undoInvariant a.roads
  let u2 ← undoInvariant b.roads
  let roads1 : Finset Nat := (u1.map RoadSideID.road).toFinset
  let roads2 : Finset Nat := (u2.map RoadSideID.road).toFinset
  let common : Finset Nat := roads1 ∩ roads2
  if common = ∅ then
    let ra ← restoreInvariant u1
    let rb ← restoreInvariant u2
    pure (false, ⟨ra, a.interior⟩, ⟨rb, b.interior⟩)
  else
    let r1 ← maybeRotate common u1
    let r2 ← maybeRotate common u2
    let ok := (r1.reverse.take common.card).all (fun id => decide (id.road ∈ common))
        && (r2.reverse.take common.card).all (fun id => decide (id.road ∈ common))
    if ok then
      -- `pop().unwrap()` `common.card` times on each: panics if too short
      if common.card ≤ r1.length && common.card ≤ r2.length then
        let m := r1.take (r1.length - common.card) ++ r2.take (r2.length - common.card)
        let mr ← restoreInvariant m
        let merged ← collapse_deadends ⟨mr, (a.interior ∪ b.interior) ∪ common⟩
        pure (true, merged, ⟨[], ∅⟩)
      else none
    else
      let ra ← restoreInvariant r1
      let rb ← restoreInvariant r2
      pure (false, ⟨ra, a.interior⟩, ⟨rb, b.interior⟩)

/-- Inner loop of a `merge_all` pass: `for other in &mut results { if
other.try_to_merge(&mut perimeter) { continue 'INPUT } }`.  Both the element of
`results` and the travelling `perimeter` are mutated (rotated) even by failed
attempts, so the updated list and the possibly-updated perimeter are threaded
through.  Returns the updated results and `none` when the perimeter merged
into one of them, `some p` when it merged with none. -/
def tryMergeInto : List Perimeter → Perimeter → Option (List Perimeter × Option Perimeter)
  | [], p => some ([], some p)
  | o :: os, p =>
    match tryToMerge o p with
    | none => none
    | some (true, o1, _) => some (o1 :: os, none)
    | some (false, o1, p1) =>
      match tryMergeInto os p1 with
      | none => none
      | some (os1, r) => some (o1 :: os1, r)

/-- One full pass of `merge_all` over `input`, carrying `results` and the
`debug` flag (set after the first successful merge when `stepwise` is on). -/
def mergePassGo (stepwise : Bool) :
    List Perimeter → List Perimeter → Bool → Option (List Perimeter)
  | [], results, _ => some results
  | p :: rest, results, debug =>
    if debug then mergePassGo stepwise rest (results ++ [p]) debug
    else
      match tryMergeInto results p with
      | none => none
      | some (results1, none) => mergePassGo stepwise rest results1 stepwise
      | some (results1, some p1) => mergePassGo stepwise rest (results1 ++ [p1]) debug

def mergeOnePass (stepwise : Bool) (input : List Perimeter) : Option (List Perimeter) :=
  mergePassGo stepwise input [] false

/-- The outer `loop` of `merge_all`: repeat passes while
`results.len() > 1 && results.len() < num_input && !stepwise_debug`.  Each
taken iteration strictly reduces the length, so `input.length + 1` passes of
fuel always suffice (proved below); `fuel = 0` is exhaustion. -/
def mergeAllAux (stepwise : Bool) : Nat → List Perimeter → Option (List Perimeter)
  | 0, _ => none
  | Nat.succ fuel, input => do
    let results ← mergeOnePass stepwise input
    if 1 < results.length ∧ results.length < input.length ∧ stepwise = false then
      mergeAllAux stepwise fuel results
    else
      pure results

/-- The initial `for p in &mut input { p.collapse_deadends(); }` loop. -/
def collapseAll : List Perimeter → Option (List Perimeter)
  | [] => some []
  | p :: rest =>
    match collapse_deadends p, collapseAll rest with
    | some q, some qs => some (q :: qs)
    | _, _ => none

/-- `Perimeter::merge_all`: collapse dead-ends on every input, then merge. -/
def merge_all (stepwise : Bool) (input : List Perimeter) : Option (List Perimeter) := do
  let collapsed ← collapseAll input
  mergeAllAux stepwise (collapsed.length + 1) collapsed

-- sanity checks on tiny inputs
example : collapse_deadends ⟨[⟨0, .Left⟩, ⟨0, .Right⟩, ⟨0, .Left⟩], ∅⟩ = none := by decide

example :
    collapse_deadends ⟨[⟨0, .Left⟩, ⟨1, .Left⟩, ⟨1, .Right⟩, ⟨2, .Left⟩, ⟨0, .Left⟩], ∅⟩ =
      some ⟨[⟨0, .Left⟩, ⟨2, .Left⟩, ⟨0, .Left⟩], {1}⟩ := by decide

/-- The `road_to_perimeters` index of `partition_by_predicate` and
`calculate_coloring`: for road `r`, the indices of the input perimeters, in
input order, one entry per occurrence of `r` in that perimeter's `roads`. -/
def roadToPerimeters (input : List Perimeter) (r : Nat) : List Nat :=
  (List.range input.length).bind (fun i =>
    ((input.getD i default).roads.filter (fun id => id.road == r)).map (fun _ => i))

/-- What one floodfill visit appends to the work queue: for each road of the
current perimeter passing the predicate, every perimeter index touching it. -/
def floodExtend (input : List Perimeter) (pred : Nat → Bool) (current : Nat) : List Nat :=
  (input.getD current default).roads.bind (fun id =>
    if pred id.road then roadToPerimeters input id.road else [])

/-- The floodfill worklist of `partition_by_predicate`.  The Rust queue is a
`Vec` used as a stack: pop from the end, extend at the end.  Indexing
`input[current]` out of bounds is a panic (`none`); it never actually happens
because queued indices come from `road_to_perimeters`. -/
def floodAux (input : List Perimeter) (pred : Nat → Bool)
    (visited : Finset Nat) (queue : List Nat) : Option (Finset Nat) :=
  match h : queue.getLast? with
  | none => some visited
  | some current =>
    if current ∈ visited then
      floodAux input pred visited queue.dropLast
    else if hc : current < input.length then
      floodAux input pred (insert current visited)
        (queue.dropLast ++ floodExtend input pred current)
    else none
termination_by ((Finset.range input.length \ visited).card, queue.length)
decreasing_by
  · apply Prod.Lex.right
    have hne : queue ≠ [] := by
      intro hq; rw [hq] at h; simp at h
    have : 0 < queue.length := List.length_pos.mpr hne
    simp [List.length_dropLast]
    omega
  · apply Prod.Lex.left
    have hmem : current ∈ Finset.range input.length \ visited := by
      simp [Finset.mem_sdiff, Finset.mem_range]
      constructor
      · exact hc
      · intro hcv; exact absurd hcv (by assumption)
    have : Finset.range input.length \ insert current visited =
        (Finset.range input.length \ visited).erase current := by
      ext x
      simp [Finset.mem_sdiff, Finset.mem_erase, Finset.mem_insert]
      tauto
    rw [this]
    exact Finset.card_erase_lt_of_mem hmem

/-- The `for start in 0..input.len()` loop of `partition_by_predicate`,
collecting one floodfill component per not-yet-finished start index. -/
def partitionsLoop (input : List Perimeter) (pred : Nat → Bool) :
    List Nat → Finset Nat → Option (List (Finset Nat))
  | [], _ => some []
  | s :: rest, finished =>
    if s ∈ finished then partitionsLoop input pred rest finished
    else
      match floodAux input pred ∅ [s] with
      | none => none
      | some part =>
        match partitionsLoop input pred rest (finished ∪ part) with
        | none => none
        | some tail => some (part :: tail)

/-- The component index sets computed by `partition_by_predicate`. -/
def partitionIndices (input : List Perimeter) (pred : Nat → Bool) :
    Option (List (Finset Nat)) :=
  partitionsLoop input pred (List.range input.length) ∅

/-- `perimeters[idx].take().unwrap()` over the sorted indices of one
partition: `none` models the panic of taking an index twice. -/
def takeGroup : List (Option Perimeter) → List Nat →
    Option (List Perimeter × List (Option Perimeter))
  | avail, [] => some ([], avail)
  | avail, i :: is =>
    match avail.getD i none with
    | some p =>
      match takeGroup (avail.set i none) is with
      | some (g, avail1) => some (p :: g, avail1)
      | none => none
    | none => none

def takeGroups : List (Option Perimeter) → List (Finset Nat) →
    Option (List (List Perimeter) × List (Option Perimeter))
  | avail, [] => some ([], avail)
  | avail, s :: ss => do
    let (g, avail1) ← takeGroup avail (s.sort (· ≤ ·))
    let (gs, avail2) ← takeGroups avail1 ss
    pure (g :: gs, avail2)

/-- `Perimeter::partition_by_predicate`.  The final `assert!` that every
perimeter has been taken is the last check. -/
def partition_by_predicate (input : List Perimeter) (pred : Nat → Bool) :
    Option (List (List Perimeter)) := do
  let parts ← partitionIndices input pred
  let (groups, avail) ← takeGroups (input.map some) parts
  if avail.all (fun o => o.isNone) then pure groups else none

/-- The availability vector of `partition_by_predicate` after the indices in
`taken` have been `take()`n: used to describe `takeGroup`'s behaviour. -/
def availOf (input : List Perimeter) (taken : Finset Nat) : List (Option Perimeter) :=
  (List.range input.length).map
    (fun i => if i ∈ taken then none else some (input.getD i default))

/-- The perimeters of one partition, in sorted index order: what one
`takeGroup` call extracts. -/
def sortedGroup (input : List Perimeter) (s : Finset Nat) : List Perimeter :=
  (s.sort (· ≤ ·)).map (fun i => input.getD i default)

/-- The colors already taken from perimeter `thisIdx`'s point of view: colors
assigned to lower-indexed perimeters sharing a road with it (this is exactly
the set of colors the source marks `false` in `available_colors`). -/
def usedColors (input : List Perimeter) (p : Perimeter) (thisIdx : Nat)
    (assigned : List Nat) : List Nat :=
  (p.roads.bind (fun id =>
    (roadToPerimeters input id.road).filter (fun o => decide (o < thisIdx)))).map
    (fun o => assigned.getD o 0)

/-- The greedy loop of `calculate_coloring`: `available_colors.iter().position(|x| *x)`
is the least color in `[0, numColors)` not marked used. -/
def coloringGo (input : List Perimeter) (numColors : Nat) :
    List Perimeter → Nat → List Nat → Option (List Nat)
  | [], _, assigned => some assigned
  | p :: rest, thisIdx, assigned =>
    match (List.range numColors).find?
        (fun c => !(usedColors input p thisIdx assigned).contains c) with
    | some c => coloringGo input numColors rest (thisIdx + 1) (assigned ++ [c])
    | none => none

/-- `Perimeter::calculate_coloring`. -/
def calculate_coloring (input : List Perimeter) (numColors : Nat) : Option (List Nat) :=
  coloringGo input numColors input 0 []

/-- The read-only road-graph query surface `single_block` consumes (the spec's
"Road-Graph Query Surface"); intersections are `Nat`s. -/
structure TraceMap where
  isBorder : Nat → Bool
  sortedSides : Nat → List RoadSideID
  otherEndpt : Nat → Nat → Nat

/-- Modelled from the spec: `abstutil::wraparound_get` (the `abstutil` crate is
not under `src/`) — indexing into the angular-sorted list modulo its length,
used to pick "the neighbor immediately counter/clockwise from the current
road-side".  `Int.emod` is already non-negative for a positive modulus. -/
def wraparoundGet (l : List RoadSideID) (i : Int) : Option RoadSideID :=
  if l.length = 0 then none
  else l.get? (Int.toNat (i % (l.length : Int)))

/-- The `loop` of `Perimeter::single_block`, with fuel (the Rust loop is
unbounded; on a finite graph it either closes, hits a border, or cycles
forever).  `acc` is the `roads` vector built so far. -/
def singleBlockAux (m : TraceMap) (startSide : RoadSideID) :
    Nat → RoadSideID → Nat → List RoadSideID → Option (Except String Perimeter)
  | 0, _, _, _ => none
  | fuel + 1, current, inter, acc =>
    if m.isBorder inter then some (Except.error "hit the map boundary")
    else
      let sorted := m.sortedSides inter
      match sorted.findIdx? (fun x => x == current) with
      | none => none
      | some idx =>
        match wraparoundGet sorted ((idx : Int) + 1) with
        | none => none
        | some next1 =>
          if next1 = current then none
          else
            match (if next1.road = current.road then
                match wraparoundGet sorted ((idx : Int) - 1) with
                | none => none
                | some next2 =>
                  if next2 = current then none
                  else if next2.road = current.road && sorted.length != 2 then none
                  else some next2
              else some next1) with
            | none => none
            | some nxt =>
              let acc1 := acc ++ [current]
              let newInter := m.otherEndpt nxt.road inter
              if nxt = startSide then some (Except.ok ⟨acc1 ++ [startSide], ∅⟩)
              else singleBlockAux m startSide fuel nxt newInter acc1

/-- `Perimeter::single_block`.  The Rust entry point computes
`start_road_side = get_l(start).get_nearest_side_of_road(map)` and
`current_intersection = get_l(start).dst_i` from the seed lane; those two
values are taken as inputs here. -/
def single_block (m : TraceMap) (startSide : RoadSideID) (startI : Nat)
    (fuel : Nat) : Option (Except String Perimeter) :=
  singleBlockAux m startSide fuel startSide startI []

/-- What `find_all_single_blocks` reads off a lane: its nearest road side and
its destination intersection. -/
structure LaneInfo where
  nearestSide : RoadSideID
  dstI : Nat

/-- The lane loop of `find_all_single_blocks`, carrying the `seen` set. -/
def findAllAux (m : TraceMap) (fuel : Nat) :
    List LaneInfo → Finset RoadSideID → List Perimeter → Option (List Perimeter)
  | [], _, acc => some acc
  | lane :: rest, seen, acc =>
    if lane.nearestSide ∈ seen then findAllAux m fuel rest seen acc
    else
      match single_block m lane.nearestSide lane.dstI fuel with
      | none => none
      | some (Except.ok p) =>
        findAllAux m fuel rest (seen ∪ p.roads.toFinset) (acc ++ [p])
      | some (Except.error _) =>
        findAllAux m fuel rest (insert lane.nearestSide seen) acc

/-- `Perimeter::find_all_single_blocks`, over the map's lane list. -/
def find_all_single_blocks (m : TraceMap) (lanes : List LaneInfo) (fuel : Nat) :
    Option (List Perimeter) :=
  findAllAux m fuel lanes ∅ []

inductive Direction2 where
  | Fwd : Direction2
  | Back : Direction2
deriving DecidableEq

/-- What `Block::from_perimeter` reads off a lane. -/
structure LaneRef where
  laneId : Nat
  dir : Direction2
  srcI : Nat
  dstI : Nat
deriving DecidableEq

/-- The geometric query surface `Block::from_perimeter` consumes.  Points and
intersection rings are abstract (`geom` is floating-point geometry):
`shiftedCenter rs` is `center_pts` of `rs.road` shifted right/left by the half
width according to `rs.side`; `distLt a b c` is `a.dist_to(b) < a.dist_to(c)`;
`sliceBetween ring a b longer` is `ring.get_slice_between(a, b, longer)`
already converted `into_points`. -/
structure GeomMap (Pt RingT : Type) where
  outermostLane : RoadSideID → LaneRef
  shiftedCenter : RoadSideID → List Pt
  commonEndpt : LaneRef → LaneRef → Option Nat
  distLt : Pt → Pt → Pt → Bool
  outerRing : Nat → Option RingT
  sliceBetween : RingT → Pt → Pt → Bool → Option (List Pt)
  isDeadend : Nat → Bool

/-- The `for pair in perimeter.roads.windows(2)` loop of `from_perimeter`,
building the polygon points.  A `PolyLine` is nonempty by construction in
`geom`, so an empty `shiftedCenter` models an invalid polyline whose
`first_pt()`/`last_pt()` would panic (`none`). -/
def buildPairs {Pt RingT : Type} (m : GeomMap Pt RingT) :
    List (RoadSideID × RoadSideID) → List Pt → Option Nat →
    Option (Except String (List Pt × Option Nat))
  | [], pts, fi => some (Except.ok (pts, fi))
  | (a, b) :: rest, pts, fi =>
    let lane1 := m.outermostLane a
    let lane2 := m.outermostLane b
    if lane1.laneId = lane2.laneId then
      some (Except.error "Perimeter road has duplicate adjacent roads")
    else
      let pl0 := m.shiftedCenter a
      let pl1 := if lane1.dir = Direction2.Back then pl0.reverse else pl0
      match pl1.head?, pl1.getLast? with
      | some plFirst, some plLast =>
        let keep : Bool :=
          if a.road = b.road then true
          else
            match m.commonEndpt lane1 lane2 with
            | some i => i == lane1.dstI
            | none =>
              match pts.getLast? with
              | some last => m.distLt last plFirst plLast
              | none => true
        let pl2 := if keep then pl1 else pl1.reverse
        let pl2First := if keep then plFirst else plLast
        let prevI := if keep then lane1.srcI else lane1.dstI
        let fi1 := match fi with | none => some prevI | some x => some x
        let pts1 :=
          match pts.getLast? with
          | some lastPt =>
            match m.outerRing prevI with
            | some ring =>
              match m.sliceBetween ring lastPt pl2First (m.isDeadend prevI) with
              | some slice => pts ++ slice
              | none => pts
            | none => pts
          | none => pts
        buildPairs m rest (pts1 ++ pl2) fi1
      | _, _ => none

/-- Remove consecutive duplicate points (`Vec::dedup`). -/
def dedupConsec {α : Type} [DecidableEq α] : List α → List α
  | [] => []
  | [a] => [a]
  | a :: b :: rest => if a = b then dedupConsec (b :: rest) else a :: dedupConsec (b :: rest)

/-- Modelled from the spec: `geom::Ring::new` (the `geom` crate is not under
`src/`).  Per the spec, a ring is "an ordered sequence of 2D points, first
equal to last" assembled into "a closed simple polygon"; construction fails
unless the sequence is closed and has at least 3 distinct points. -/
def ringNew {Pt : Type} [DecidableEq Pt] (pts : List Pt) : Except String (List Pt) :=
  if pts.head? = pts.getLast? ∧ 3 ≤ pts.toFinset.card then Except.ok pts
  else Except.error "can not make a ring"

/-- `Block`: a perimeter plus the polygon (its point sequence). -/
structure Block (Pt : Type) where
  perimeter : Perimeter
  polygon : List Pt
deriving DecidableEq

/-- `Block::from_perimeter`. -/
def from_perimeter {Pt RingT : Type} [DecidableEq Pt] (m : GeomMap Pt RingT)
    (perimeter : Perimeter) : Option (Except String (Block Pt)) := do
  let pairs := perimeter.roads.zip perimeter.roads.tail
  let res ← buildPairs m pairs [] none
  match res with
  | Except.error e => some (Except.error e)
  | Except.ok (pts, fi) =>
    match fi with
    | none => none
    | some fiv =>
      let pts2 ←
        (match m.outerRing fiv with
        | some ring =>
          match pts.getLast?, pts.head? with
          | some lastPt, some firstPt =>
            match m.sliceBetween ring lastPt firstPt (m.isDeadend fiv) with
            | some slice => some (pts ++ slice)
            | none => some pts
          | _, _ => none
        | none => some pts)
      match pts2.head? with
      | none => none
      | some p0 =>
        let pts3 := dedupConsec (pts2 ++ [p0])
        match ringNew pts3 with
        | Except.ok poly => some (Except.ok ⟨perimeter, poly⟩)
        | Except.error e => some (Except.error e)

/-! ## Derived notions the claims speak about -/

/-- The multiset of roads referenced by a list of road sides. -/
def roadsMS (l : List RoadSideID) : Multiset Nat :=
  ((l.map RoadSideID.road : List Nat) : Multiset Nat)

/-- All roads of a perimeter: boundary plus interior. -/
def roadsOf (p : Perimeter) : Finset Nat :=
  boundaryRoads p ∪ p.interior

/-- The multiset, across a list of loops, of each loop's road set
(boundary ∪ interior) — the quantity claim C2 says is conserved. -/
def roadsAcross (l : List Perimeter) : Multiset Nat :=
  (l.map (fun p => (roadsOf p).val)).sum

/-- The union, across a list of loops, of each loop's road set. -/
def unionRoads (l : List Perimeter) : Finset Nat :=
  l.foldr (fun p acc => roadsOf p ∪ acc) ∅

/-- Total number of boundary occurrences of road `r` across a family. -/
def countTotal (l : List Perimeter) (r : Nat) : Nat :=
  (l.map (fun p => countRoad p r)).sum

/-- A family of perimeters as the real pipeline produces them: each closed,
every interior disjoint from every boundary, and every road traced at most
twice over all boundaries (once per side). -/
def GoodFamily (l : List Perimeter) : Prop :=
  (∀ p ∈ l, ClosedLoop p) ∧
  (∀ p ∈ l, ∀ q ∈ l, p.interior ∩ boundaryRoads q = ∅) ∧
  (∀ r : Nat, countTotal l r ≤ 2)

instance (l : List Perimeter) : Decidable (GoodFamily l) := by
  refine decidable_of_iff
    ((∀ p ∈ l, ClosedLoop p) ∧
      (∀ p ∈ l, ∀ q ∈ l, p.interior ∩ boundaryRoads q = ∅) ∧
      (∀ r ∈ l.bind (fun p => (logicalRoads p).map RoadSideID.road),
        countTotal l r ≤ 2)) ?_
  unfold GoodFamily
  refine and_congr Iff.rfl (and_congr Iff.rfl ⟨fun h r => ?_, fun h r _ => h r⟩)
  by_cases hr : r ∈ l.bind (fun p => (logicalRoads p).map RoadSideID.road)
  · exact h r hr
  · have : countTotal l r = 0 := by
      unfold countTotal
      rw [List.sum_eq_zero]
      intro x hx
      simp at hx
      obtain ⟨p, hp, rfl⟩ := hx
      unfold countRoad
      rw [List.count_eq_zero]
      intro hc
      exact hr (by simp; exact ⟨p, hp, by simpa using hc⟩)
    omega

/-- Two loops are adjacent when they share a boundary road. -/
def SharesRoad (p q : Perimeter) : Prop :=
  ∃ r, r ∈ boundaryRoads p ∧ r ∈ boundaryRoads q

instance (p q : Perimeter) : Decidable (SharesRoad p q) := by
  refine decidable_of_iff (¬(boundaryRoads p ∩ boundaryRoads q) = ∅) ?_
  unfold SharesRoad
  rw [show (¬(boundaryRoads p ∩ boundaryRoads q) = ∅) ↔
      (boundaryRoads p ∩ boundaryRoads q) ≠ ∅ from Iff.rfl,
    ← Finset.nonempty_iff_ne_empty]
  constructor
  · rintro ⟨r, hr⟩; simp at hr; exact ⟨r, hr.1, hr.2⟩
  · rintro ⟨r, h1, h2⟩; exact ⟨r, by simp [h1, h2]⟩

/-- The greedy-coloring contract at index `i`: the assigned color is the
lowest index in `[0, numColors)` not used by a lower-indexed loop sharing a
road. -/
def GreedyAt (input : List Perimeter) (numColors : Nat) (colors : List Nat)
    (i : Nat) : Prop :=
  colors.getD i 0 < numColors ∧
  (∀ j, j < i → SharesRoad (input.getD i default) (input.getD j default) →
    colors.getD j 0 ≠ colors.getD i 0) ∧
  (∀ c, c < colors.getD i 0 → ∃ j, j < i ∧
    SharesRoad (input.getD i default) (input.getD j default) ∧ colors.getD j 0 = c)

/-- The filtered adjacency of `partition_by_predicate`: loops `i` and `j`
share a road satisfying the predicate. -/
def PredAdjSpec (input : List Perimeter) (pred : Nat → Bool) (i j : Nat) : Prop :=
  i < input.length ∧ j < input.length ∧
  ∃ r, pred r = true ∧ r ∈ boundaryRoads (input.getD i default) ∧
    r ∈ boundaryRoads (input.getD j default)

/-! ## Concrete inputs used by counterexamples and witnesses -/

/-- A closed perimeter referencing road 0 three times: collapsing moves road
0 into the interior while a third boundary occurrence of it survives. -/
def cexCollapse : Perimeter :=
  ⟨[⟨0, .Left⟩, ⟨1, .Left⟩, ⟨0, .Left⟩, ⟨0, .Right⟩, ⟨0, .Left⟩], ∅⟩

/-- The perimeter traced around an isolated dead-end road: both sides of one
road.  The seam rotation of `collapse_deadends` never exits on it. -/
def cexRotate : Perimeter := ⟨[⟨0, .Left⟩, ⟨0, .Right⟩, ⟨0, .Left⟩], ∅⟩

/-- A square block bounded by roads 1,2,5,3 (road 5 shared with `exB`). -/
def exA : Perimeter :=
  ⟨[⟨1, .Left⟩, ⟨2, .Left⟩, ⟨5, .Left⟩, ⟨3, .Left⟩, ⟨1, .Left⟩], ∅⟩

/-- A square block bounded by roads 5,4,6,7 (road 5 shared with `exA`). -/
def exB : Perimeter :=
  ⟨[⟨5, .Right⟩, ⟨4, .Left⟩, ⟨6, .Left⟩, ⟨7, .Left⟩, ⟨5, .Right⟩], ∅⟩

/-- The single loop produced by merging `exA` and `exB`. -/
def exMerged : Perimeter :=
  ⟨[⟨3, .Left⟩, ⟨1, .Left⟩, ⟨2, .Left⟩, ⟨4, .Left⟩, ⟨6, .Left⟩, ⟨7, .Left⟩, ⟨3, .Left⟩], {5}⟩

def exDisjA : Perimeter := ⟨[⟨0, .Left⟩, ⟨1, .Left⟩, ⟨0, .Left⟩], ∅⟩

def exDisjB : Perimeter := ⟨[⟨2, .Left⟩, ⟨3, .Left⟩, ⟨2, .Left⟩], ∅⟩

/-- Two loops sharing road 0 (used by coloring/partition witnesses). -/
def exShare1 : Perimeter := ⟨[⟨0, .Left⟩, ⟨1, .Left⟩, ⟨0, .Left⟩], ∅⟩

def exShare2 : Perimeter := ⟨[⟨0, .Right⟩, ⟨2, .Left⟩, ⟨0, .Right⟩], ∅⟩

/-- A map that is one isolated road with dead-ends at both endpoints. -/
def exMapDead : TraceMap :=
  ⟨fun _ => false, fun _ => [⟨0, .Left⟩, ⟨0, .Right⟩], fun _ i => 1 - i⟩

/-- A map whose every intersection is a border. -/
def exMapBorder : TraceMap :=
  ⟨fun _ => true, fun _ => [], fun _ _ => 0⟩

/-- A tiny geometric query surface (points are naturals, rings trivial). -/
def c9Map : GeomMap Nat Unit where
  outermostLane := fun rs => ⟨rs.road, .Fwd, 5, 6⟩
  shiftedCenter := fun rs => if rs.road = 0 then [0, 1] else [2, 3]
  commonEndpt := fun _ _ => some 6
  distLt := fun _ _ _ => true
  outerRing := fun _ => none
  sliceBetween := fun _ _ _ _ => none
  isDeadend := fun _ => false

def c9Perim : Perimeter := ⟨[⟨0, .Left⟩, ⟨1, .Left⟩, ⟨0, .Left⟩], ∅⟩

/-! ## Basic lemmas about the building blocks -/

theorem find_range_some {f : Nat → Bool} {n k : Nat}
    (h : (List.range n).find? f = some k) :
    k < n ∧ f k = true ∧ ∀ j, j < k → f j = false := by
  induction n with
  | zero => simp [List.range_zero] at h
  | succ m ih =>
    rw [List.range_succ, List.find?_append] at h
    cases hm : (List.range m).find? f with
    | some k0 =>
      rw [hm] at h
      simp at h
      subst h
      obtain ⟨h1, h2, h3⟩ := ih hm
      exact ⟨Nat.lt_succ_of_lt h1, h2, h3⟩
    | none =>
      rw [hm] at h
      simp at h
      obtain ⟨h1, h2⟩ := h
      subst h2
      refine ⟨Nat.lt_succ_self m, h1, ?_⟩
      intro j hj
      have := List.find?_eq_none.mp hm j (by simp [List.mem_range]; exact hj)
      simpa using this

theorem rotateWhile_eq_some {cond : List RoadSideID → Bool} {l l' : List RoadSideID}
    (h : rotateWhile cond l = some l') :
    ∃ k, k < l.length ∧ l' = l.rotate k ∧ cond l' = false ∧
      ∀ j, j < k → cond (l.rotate j) = true := by
  unfold rotateWhile at h
  cases hf : (List.range l.length).find? (fun k => !cond (l.rotate k)) with
  | none => rw [hf] at h; simp at h
  | some k =>
    rw [hf] at h
    simp at h
    obtain ⟨h1, h2, h3⟩ := find_range_some hf
    refine ⟨k, h1, h.symm, ?_, ?_⟩
    · subst h; simpa using h2
    · intro j hj
      have := h3 j hj
      simpa using this

theorem rotateWhile_perm {cond : List RoadSideID → Bool} {l l' : List RoadSideID}
    (h : rotateWhile cond l = some l') : l'.Perm l := by
  obtain ⟨k, _, hk, _, _⟩ := rotateWhile_eq_some h
  rw [hk]
  exact l.rotate_perm k

theorem undoInvariant_eq_some {l l0 : List RoadSideID}
    (h : undoInvariant l = some l0) :
    l0 = l.dropLast ∧ l ≠ [] ∧ l.head? = l.getLast? := by
  unfold undoInvariant at h
  cases hh : l.head? with
  | none => rw [hh] at h; simp at h
  | some x =>
    rw [hh] at h
    by_cases hl : l.getLast? = some x
    · simp [hl] at h
      exact ⟨h.symm, by rintro rfl; simp at hh, hl.symm⟩
    · simp [hl] at h

theorem undoInvariant_of_closed {p : Perimeter} (h : ClosedLoop p) :
    undoInvariant p.roads = some (logicalRoads p) := by
  obtain ⟨hlen, heq⟩ := h
  unfold undoInvariant logicalRoads
  cases hh : p.roads.head? with
  | none =>
    exfalso
    rw [List.head?_eq_none_iff] at hh
    rw [hh] at hlen; simp at hlen
  | some x => rw [← heq, hh]; simp

theorem restoreInvariant_eq_some {l r : List RoadSideID}
    (h : restoreInvariant l = some r) :
    ∃ x, l.head? = some x ∧ r = l ++ [x] := by
  unfold restoreInvariant at h
  cases hh : l.head? with
  | none => rw [hh] at h; simp at h
  | some x => rw [hh] at h; simp at h; exact ⟨x, rfl, h.symm⟩

theorem restore_closed {l r : List RoadSideID} {i : Finset Nat}
    (h : restoreInvariant l = some r) : ClosedLoop ⟨r, i⟩ := by
  obtain ⟨x, hx, rfl⟩ := restoreInvariant_eq_some h
  have hne : l ≠ [] := by rintro rfl; simp at hx
  constructor
  · simp
    have : 0 < l.length := List.length_pos.mpr hne
    omega
  · simp [List.head?_append, hx, List.getLast?_append]

theorem closed_roads_eq {p : Perimeter} (h : ClosedLoop p) :
    ∃ x, p.roads.head? = some x ∧ p.roads = logicalRoads p ++ [x] ∧
      logicalRoads p ≠ [] := by
  obtain ⟨hlen, heq⟩ := h
  have hne : p.roads ≠ [] := by
    intro hc; rw [hc] at hlen; simp at hlen
  obtain ⟨x, hx⟩ : ∃ x, p.roads.head? = some x := by
    cases hh : p.roads.head? with
    | none => rw [List.head?_eq_none_iff] at hh; exact absurd hh hne
    | some y => exact ⟨y, rfl⟩
  have hlast : p.roads.getLast hne = x := by
    have h1 : p.roads.getLast? = some x := by rw [← heq]; exact hx
    rw [List.getLast?_eq_getLast _ hne] at h1
    exact Option.some.inj h1
  refine ⟨x, hx, ?_, ?_⟩
  · unfold logicalRoads
    conv_lhs => rw [← List.dropLast_append_getLast hne]
    rw [hlast]
  · unfold logicalRoads
    intro hc
    have h2 := List.length_dropLast p.roads
    rw [hc] at h2
    simp at h2
    omega

theorem restore_of_closed {p : Perimeter} (h : ClosedLoop p) :
    restoreInvariant (logicalRoads p) = some p.roads := by
  obtain ⟨x, hx, hroads, hne⟩ := closed_roads_eq h
  unfold restoreInvariant
  have hh : (logicalRoads p).head? = some x := by
    rw [hroads] at hx
    rwa [List.head?_append_of_ne_nil _ hne] at hx
  rw [hh]
  simp [← hroads]

@[simp] theorem roadsMS_nil : roadsMS [] = 0 := rfl

@[simp] theorem roadsMS_cons (a : RoadSideID) (l : List RoadSideID) :
    roadsMS (a :: l) = a.road ::ₘ roadsMS l := rfl

@[simp] theorem roadsMS_append (l1 l2 : List RoadSideID) :
    roadsMS (l1 ++ l2) = roadsMS l1 + roadsMS l2 := by
  unfold roadsMS
  simp

theorem roadsMS_perm {l l' : List RoadSideID} (h : l.Perm l') :
    roadsMS l = roadsMS l' := by
  unfold roadsMS
  exact Multiset.coe_eq_coe.mpr (h.map RoadSideID.road)

theorem roadsMS_concat (l : List RoadSideID) (x : RoadSideID) :
    roadsMS (l ++ [x]) = roadsMS l + {x.road} := by
  rw [roadsMS_append]
  rfl

theorem collapseStep_pop {acc : List RoadSideID} {int : Finset Nat}
    {prev id : RoadSideID} (hl : acc.getLast? = some prev)
    (h : prev.road = id.road) :
    collapseStep (acc, int) id = (acc.dropLast, insert id.road int) := by
  unfold collapseStep
  rw [hl]
  simp [h]

theorem collapseStep_push_nil {int : Finset Nat} {id : RoadSideID} :
    collapseStep ([], int) id = ([id], int) := rfl

theorem collapseStep_push {acc : List RoadSideID} {int : Finset Nat}
    {prev id : RoadSideID} (hl : acc.getLast? = some prev)
    (h : ¬prev.road = id.road) :
    collapseStep (acc, int) id = (acc ++ [id], int) := by
  unfold collapseStep
  rw [hl]
  simp [h]

/-- The one-pass scan of `collapse_deadends`: the boundary multiset shrinks by
two copies of each removed road, and exactly the removed roads get inserted
into the interior set. -/
theorem collapseScan_ms (l : List RoadSideID) :
    ∀ (acc : List RoadSideID) (int : Finset Nat),
      ∃ m : Multiset Nat,
        roadsMS acc + roadsMS l = roadsMS (l.foldl collapseStep (acc, int)).1 + 2 • m ∧
        (l.foldl collapseStep (acc, int)).2 = int ∪ m.toFinset := by
  induction l with
  | nil =>
    intro acc int
    exact ⟨0, by simp, by simp⟩
  | cons id rest ih =>
    intro acc int
    rw [List.foldl_cons]
    cases hl : acc.getLast? with
    | none =>
      have hacc : acc = [] := by
        cases acc with
        | nil => rfl
        | cons a t => simp [List.getLast?_concat] at hl
      subst hacc
      rw [collapseStep_push_nil]
      obtain ⟨m, hm1, hm2⟩ := ih [id] int
      refine ⟨m, ?_, hm2⟩
      rw [← hm1]
      simp
    | some prev =>
      by_cases hroad : prev.road = id.road
      · rw [collapseStep_pop hl hroad]
        have hne : acc ≠ [] := by
          rintro rfl; simp at hl
        have hsplit : acc = acc.dropLast ++ [prev] := by
          conv_lhs => rw [← List.dropLast_append_getLast hne]
          rw [List.getLast?_eq_getLast _ hne] at hl
          rw [Option.some.inj hl]
        obtain ⟨m, hm1, hm2⟩ := ih acc.dropLast (insert id.road int)
        refine ⟨m + {id.road}, ?_, ?_⟩
        · have key : roadsMS acc.dropLast + {id.road} + (id.road ::ₘ roadsMS rest) =
              (roadsMS acc.dropLast + roadsMS rest) + ({id.road} + {id.road}) := by
            rw [← Multiset.singleton_add]
            abel
          conv_lhs => rw [hsplit]
          rw [roadsMS_concat, hroad, roadsMS_cons, key, hm1, smul_add, two_nsmul]
          abel
        · rw [hm2]
          ext s
          simp
          tauto
      · rw [collapseStep_push hl hroad]
        obtain ⟨m, hm1, hm2⟩ := ih (acc ++ [id]) int
        refine ⟨m, ?_, hm2⟩
        rw [← hm1, roadsMS_concat, roadsMS_cons, ← Multiset.singleton_add]
        abel

/-- Main characterization of `collapse_deadends`: when it returns, the result
is closed, the boundary multiset of the input splits as the boundary multiset
of the output plus two copies of each collapsed road, and the interior grows
by exactly the collapsed roads. -/
theorem collapse_main {p q : Perimeter} (h : collapse_deadends p = some q) :
    ∃ m : Multiset Nat,
      ClosedLoop q ∧
      roadsMS (logicalRoads p) = roadsMS (logicalRoads q) + 2 • m ∧
      q.interior = p.interior ∪ m.toFinset := by
  unfold collapse_deadends at h
  simp only [Option.bind_eq_bind, Option.bind_eq_some, Option.pure_def,
    Option.some.injEq] at h
  obtain ⟨l0, h0, l1, h1, r, hr, hq⟩ := h
  obtain ⟨m, hm1, hm2⟩ := collapseScan_ms l1 [] p.interior
  have hperm : roadsMS l0 = roadsMS l1 := (roadsMS_perm (rotateWhile_perm h1)).symm
  obtain ⟨hdrop, hne, hhl⟩ := undoInvariant_eq_some h0
  obtain ⟨x, hx, hr'⟩ := restoreInvariant_eq_some hr
  refine ⟨m, ?_, ?_, ?_⟩
  · rw [← hq]; exact restore_closed hr
  · have hlq : logicalRoads q = (l1.foldl collapseStep ([], p.interior)).1 := by
      rw [← hq]
      unfold logicalRoads
      simp only
      rw [hr']
      exact List.dropLast_concat
    rw [hlq]
    unfold logicalRoads
    rw [← hdrop, hperm]
    simpa using hm1
  · rw [← hq]
    simpa using hm2

theorem countRoad_eq_count (p : Perimeter) (r : Nat) :
    countRoad p r = (roadsMS (logicalRoads p)).count r := by
  unfold countRoad roadsMS
  simp

theorem mem_boundaryRoads {p : Perimeter} {r : Nat} :
    r ∈ boundaryRoads p ↔ ∃ id ∈ p.roads, id.road = r := by
  unfold boundaryRoads
  simp

theorem closed_boundaryRoads {p : Perimeter} (h : ClosedLoop p) :
    boundaryRoads p = (roadsMS (logicalRoads p)).toFinset := by
  obtain ⟨x, hx, hroads, hne⟩ := closed_roads_eq h
  have hxl : x ∈ logicalRoads p := by
    have : (logicalRoads p).head? = some x := by
      rw [hroads] at hx
      cases hlp : logicalRoads p with
      | nil => exact absurd hlp hne
      | cons a t => rw [hlp] at hx; simpa using hx
    exact List.mem_of_mem_head? this
  unfold boundaryRoads roadsMS
  rw [hroads, List.map_append, List.toFinset_append, List.toFinset_coe]
  apply Finset.union_eq_left.mpr
  intro s hs
  simp at hs
  subst hs
  simp
  exact ⟨x, hxl, rfl⟩

theorem collapse_closed_src {p q : Perimeter} (h : collapse_deadends p = some q) :
    ClosedLoop p := by
  unfold collapse_deadends at h
  simp only [Option.bind_eq_bind, Option.bind_eq_some, Option.pure_def,
    Option.some.injEq] at h
  obtain ⟨l0, h0, l1, h1, r, hr, hq⟩ := h
  obtain ⟨hdrop, hne, hhl⟩ := undoInvariant_eq_some h0
  obtain ⟨k, hk, _, _, _⟩ := rotateWhile_eq_some h1
  constructor
  · have h2 : l0.length = p.roads.length - 1 := by
      rw [hdrop]; exact List.length_dropLast _
    have h3 : 0 < p.roads.length := List.length_pos.mpr hne
    omega
  · exact hhl

/-- Counting form of `collapse_main`. -/
theorem collapse_count {p q : Perimeter} {m : Multiset Nat}
    (hms : roadsMS (logicalRoads p) = roadsMS (logicalRoads q) + 2 • m)
    (r : Nat) : countRoad p r = countRoad q r + 2 * m.count r := by
  rw [countRoad_eq_count, countRoad_eq_count, hms]
  simp [Multiset.count_nsmul]

/-- `collapse_deadends` preserves each loop's full road set. -/
theorem collapse_roadsOf {p q : Perimeter} (h : collapse_deadends p = some q) :
    roadsOf q = roadsOf p := by
  obtain ⟨m, hcq, hms, hint⟩ := collapse_main h
  have hcp := collapse_closed_src h
  unfold roadsOf
  rw [closed_boundaryRoads hcq, closed_boundaryRoads hcp, hms, hint]
  rw [Multiset.toFinset_add, Multiset.toFinset_nsmul _ 2 (by omega)]
  ext s
  simp
  tauto

/-- `collapse_deadends` never increases any road's boundary multiplicity. -/
theorem collapse_count_le {p q : Perimeter} (h : collapse_deadends p = some q)
    (r : Nat) : countRoad q r ≤ countRoad p r := by
  obtain ⟨m, _, hms, _⟩ := collapse_main h
  have := collapse_count hms r
  omega

/-- A road newly inserted into the interior by `collapse_deadends` had at
least two boundary occurrences. -/
theorem collapse_interior_sub {p q : Perimeter} (h : collapse_deadends p = some q) :
    q.interior ⊆ p.interior ∪ (boundaryRoads p).filter (fun r => 2 ≤ countRoad p r) := by
  obtain ⟨m, hcq, hms, hint⟩ := collapse_main h
  have hcp := collapse_closed_src h
  rw [hint]
  intro r hr
  simp at hr
  rcases hr with hr | hr
  · simp [hr]
  · have hm1 : 1 ≤ m.count r := by
      rwa [← Multiset.one_le_count_iff_mem] at hr
    have hc := collapse_count hms r
    have h2 : 2 ≤ countRoad p r := by omega
    have hb : r ∈ boundaryRoads p := by
      rw [closed_boundaryRoads hcp, Multiset.mem_toFinset,
        ← Multiset.one_le_count_iff_mem, ← countRoad_eq_count]
      omega
    simp [hb, h2]

/-- Under the at-most-twice multiplicity bound, `collapse_deadends` preserves
interior/boundary disjointness. -/
theorem collapse_disjoint {p q : Perimeter}
    (hd : InteriorDisjoint p) (hcnt : ∀ r, countRoad p r ≤ 2)
    (h : collapse_deadends p = some q) : InteriorDisjoint q := by
  obtain ⟨m, hcq, hms, hint⟩ := collapse_main h
  have hcp := collapse_closed_src h
  unfold InteriorDisjoint at hd ⊢
  rw [Finset.eq_empty_iff_forall_not_mem] at hd ⊢
  intro r hr
  simp [hint] at hr
  obtain ⟨hr1, hr2⟩ := hr
  have hcq1 : 1 ≤ countRoad q r := by
    rw [closed_boundaryRoads hcq, Multiset.mem_toFinset,
      ← Multiset.one_le_count_iff_mem, ← countRoad_eq_count] at hr2
    exact hr2
  rcases hr1 with hr1 | hr1
  · apply hd r
    have hbp : r ∈ boundaryRoads p := by
      rw [closed_boundaryRoads hcp, Multiset.mem_toFinset,
        ← Multiset.one_le_count_iff_mem, ← countRoad_eq_count]
      have := collapse_count hms r
      omega
    simp [hr1, hbp]
  · have hm1 : 1 ≤ m.count r := by
      rwa [← Multiset.one_le_count_iff_mem] at hr1
    have := collapse_count hms r
    have := hcnt r
    omega

theorem closed_of_undo {p : Perimeter} {u : List RoadSideID}
    (hu : undoInvariant p.roads = some u) (hne : u ≠ []) : ClosedLoop p := by
  obtain ⟨hdrop, hpne, hhl⟩ := undoInvariant_eq_some hu
  refine ⟨?_, hhl⟩
  have h1 : u.length = p.roads.length - 1 := by rw [hdrop]; exact List.length_dropLast _
  have h2 : 0 < u.length := List.length_pos.mpr hne
  have h3 : 0 < p.roads.length := List.length_pos.mpr hpne
  omega

theorem closed_boundaryRoads_list {p : Perimeter} (h : ClosedLoop p) :
    ((logicalRoads p).map RoadSideID.road).toFinset = boundaryRoads p := by
  rw [closed_boundaryRoads h]
  unfold roadsMS
  rw [List.toFinset_coe]

theorem logical_restored {l r : List RoadSideID} {int : Finset Nat}
    (h : restoreInvariant l = some r) :
    logicalRoads ⟨r, int⟩ = l := by
  obtain ⟨x, hx, rfl⟩ := restoreInvariant_eq_some h
  unfold logicalRoads
  exact List.dropLast_concat

theorem reverse_take_eq {α : Type} (l : List α) (cd : Nat) (hcd : cd ≤ l.length) :
    l.reverse.take cd = (l.drop (l.length - cd)).reverse := by
  have key : ∀ (X Y : List α), X.length = cd → (X ++ Y).take cd = X := by
    intro X Y hXY
    rw [← hXY, List.take_left]
  have h2 : l.reverse = (l.drop (l.length - cd)).reverse ++ (l.take (l.length - cd)).reverse := by
    rw [← List.reverse_append, List.take_append_drop]
  rw [h2]
  apply key
  simp
  omega

theorem maybeRotate_eq_some {common : Finset Nat} {u r : List RoadSideID}
    (h : maybeRotate common u = some r) : ∃ k, r = u.rotate k := by
  unfold maybeRotate at h
  by_cases hc : u.length = common.card
  · rw [if_pos hc] at h
    exact ⟨0, by rw [List.rotate_zero, Option.some.inj h]⟩
  · rw [if_neg hc] at h
    obtain ⟨k, _, hk, _, _⟩ := rotateWhile_eq_some h
    exact ⟨k, hk⟩

/-- Full case description of a returning `try_to_merge`. -/
theorem tryToMerge_spec {a b : Perimeter} {s : Bool} {a' b' : Perimeter}
    (h : tryToMerge a b = some (s, a', b')) :
    ClosedLoop a ∧ ClosedLoop b ∧
    (s = false →
      a'.interior = a.interior ∧ b'.interior = b.interior ∧
      ClosedLoop a' ∧ ClosedLoop b' ∧
      (∃ k, logicalRoads a' = (logicalRoads a).rotate k) ∧
      (∃ k, logicalRoads b' = (logicalRoads b).rotate k)) ∧
    (s = true → b' = ⟨[], ∅⟩ ∧
      ∃ (k1 k2 : Nat) (pre : Perimeter),
        (boundaryRoads a ∩ boundaryRoads b) ≠ ∅ ∧
        (boundaryRoads a ∩ boundaryRoads b).card ≤ (logicalRoads a).length ∧
        (boundaryRoads a ∩ boundaryRoads b).card ≤ (logicalRoads b).length ∧
        (∀ id ∈ ((logicalRoads a).rotate k1).drop
            ((logicalRoads a).length - (boundaryRoads a ∩ boundaryRoads b).card),
          id.road ∈ boundaryRoads a ∩ boundaryRoads b) ∧
        (∀ id ∈ ((logicalRoads b).rotate k2).drop
            ((logicalRoads b).length - (boundaryRoads a ∩ boundaryRoads b).card),
          id.road ∈ boundaryRoads a ∩ boundaryRoads b) ∧
        logicalRoads pre =
          ((logicalRoads a).rotate k1).take
            ((logicalRoads a).length - (boundaryRoads a ∩ boundaryRoads b).card) ++
          ((logicalRoads b).rotate k2).take
            ((logicalRoads b).length - (boundaryRoads a ∩ boundaryRoads b).card) ∧
        ClosedLoop pre ∧
        pre.interior = (a.interior ∪ b.interior) ∪ (boundaryRoads a ∩ boundaryRoads b) ∧
        collapse_deadends pre = some a') := by
  unfold tryToMerge at h
  simp only [Option.bind_eq_bind, Option.bind_eq_some, Option.pure_def,
    Option.some.injEq] at h
  obtain ⟨u1, hu1, u2, hu2, h⟩ := h
  have hu1d : u1 = logicalRoads a := (undoInvariant_eq_some hu1).1
  have hu2d : u2 = logicalRoads b := (undoInvariant_eq_some hu2).1
  subst hu1d
  subst hu2d
  by_cases hcom : (((logicalRoads a).map RoadSideID.road).toFinset ∩
      ((logicalRoads b).map RoadSideID.road).toFinset : Finset Nat) = ∅
  · rw [if_pos hcom] at h
    simp only [Option.bind_eq_bind, Option.bind_eq_some, Option.some.injEq] at h
    obtain ⟨ra, hra, rb, hrb, heq⟩ := h
    injection heq with h1 h23
    injection h23 with h2 h3
    subst h1
    subst h2
    subst h3
    have hane : logicalRoads a ≠ [] := by
      obtain ⟨x, hx, _⟩ := restoreInvariant_eq_some hra
      rintro hc
      rw [hc] at hx
      simp at hx
    have hbne : logicalRoads b ≠ [] := by
      obtain ⟨x, hx, _⟩ := restoreInvariant_eq_some hrb
      rintro hc
      rw [hc] at hx
      simp at hx
    refine ⟨closed_of_undo hu1 hane, closed_of_undo hu2 hbne, ?_, ?_⟩
    · intro _
      refine ⟨rfl, rfl, restore_closed hra, restore_closed hrb, ⟨0, ?_⟩, ⟨0, ?_⟩⟩
      · rw [List.rotate_zero]
        exact logical_restored hra
      · rw [List.rotate_zero]
        exact logical_restored hrb
    · intro hc
      exact Bool.noConfusion hc
  · rw [if_neg hcom] at h
    simp only [Option.bind_eq_some, Option.some.injEq] at h
    obtain ⟨r1, hr1, r2, hr2, h⟩ := h
    have hane : logicalRoads a ≠ [] := by
      rintro hc
      rw [hc] at hcom
      simp at hcom
    have hbne : logicalRoads b ≠ [] := by
      rintro hc
      rw [hc] at hcom
      simp at hcom
    have hca : ClosedLoop a := closed_of_undo hu1 hane
    have hcb : ClosedLoop b := closed_of_undo hu2 hbne
    have hcommon_eq : (((logicalRoads a).map RoadSideID.road).toFinset ∩
        ((logicalRoads b).map RoadSideID.road).toFinset : Finset Nat) =
        boundaryRoads a ∩ boundaryRoads b := by
      rw [closed_boundaryRoads_list hca, closed_boundaryRoads_list hcb]
    rw [hcommon_eq] at h hcom
    obtain ⟨k1, hk1⟩ := maybeRotate_eq_some hr1
    obtain ⟨k2, hk2⟩ := maybeRotate_eq_some hr2
    subst hk1
    subst hk2
    by_cases hok : (((((logicalRoads a).rotate k1).reverse.take
          (boundaryRoads a ∩ boundaryRoads b).card).all
            (fun id => decide (id.road ∈ boundaryRoads a ∩ boundaryRoads b)) &&
        ((((logicalRoads b).rotate k2).reverse.take
          (boundaryRoads a ∩ boundaryRoads b).card).all
            (fun id => decide (id.road ∈ boundaryRoads a ∩ boundaryRoads b)))) = true)
    · rw [if_pos hok] at h
      by_cases hle : (((boundaryRoads a ∩ boundaryRoads b).card ≤
            ((logicalRoads a).rotate k1).length &&
          (boundaryRoads a ∩ boundaryRoads b).card ≤
            ((logicalRoads b).rotate k2).length) = true)
      · rw [if_pos hle] at h
        simp only [Option.bind_eq_bind, Option.bind_eq_some, Option.some.injEq] at h
        obtain ⟨mr, hmr, merged, hmerged, heq⟩ := h
        injection heq with h1 h23
        injection h23 with h2 h3
        subst h1
        subst h2
        subst h3
        simp only [Bool.and_eq_true, decide_eq_true_eq] at hok hle
        obtain ⟨hok1, hok2⟩ := hok
        obtain ⟨hle1, hle2⟩ := hle
        rw [List.length_rotate] at hle1 hle2
        refine ⟨hca, hcb, ?_, ?_⟩
        · intro hc
          exact Bool.noConfusion hc
        · intro _
          refine ⟨rfl, k1, k2, ⟨mr, (a.interior ∪ b.interior) ∪
            (boundaryRoads a ∩ boundaryRoads b)⟩, hcom, hle1, hle2, ?_, ?_, ?_, ?_, rfl, ?_⟩
          · intro id hid
            have hmem : id ∈ ((logicalRoads a).rotate k1).reverse.take
                (boundaryRoads a ∩ boundaryRoads b).card := by
              rw [reverse_take_eq _ _ (by rw [List.length_rotate]; exact hle1)]
              rw [List.mem_reverse]
              rw [List.length_rotate]
              exact hid
            have := List.all_eq_true.mp hok1 id hmem
            simpa using this
          · intro id hid
            have hmem : id ∈ ((logicalRoads b).rotate k2).reverse.take
                (boundaryRoads a ∩ boundaryRoads b).card := by
              rw [reverse_take_eq _ _ (by rw [List.length_rotate]; exact hle2)]
              rw [List.mem_reverse]
              rw [List.length_rotate]
              exact hid
            have := List.all_eq_true.mp hok2 id hmem
            simpa using this
          · have := @logical_restored _ _ ((a.interior ∪ b.interior) ∪
              (boundaryRoads a ∩ boundaryRoads b)) hmr
            rw [this]
            rw [List.length_rotate, List.length_rotate]
          · exact restore_closed hmr
          · exact hmerged
      · rw [if_neg hle] at h
        simp at h
    · rw [if_neg hok] at h
      simp only [Option.bind_eq_bind, Option.bind_eq_some, Option.some.injEq] at h
      obtain ⟨ra, hra, rb, hrb, heq⟩ := h
      injection heq with h1 h23
      injection h23 with h2 h3
      subst h1
      subst h2
      subst h3
      refine ⟨hca, hcb, ?_, ?_⟩
      · intro _
        refine ⟨rfl, rfl, restore_closed hra, restore_closed hrb, ⟨k1, ?_⟩, ⟨k2, ?_⟩⟩
        · exact logical_restored hra
        · exact logical_restored hrb
      · intro hc
        exact Bool.noConfusion hc

theorem closed_mem_boundary_iff {p : Perimeter} (h : ClosedLoop p) (r : Nat) :
    r ∈ boundaryRoads p ↔ 1 ≤ countRoad p r := by
  rw [closed_boundaryRoads h, Multiset.mem_toFinset,
    ← Multiset.one_le_count_iff_mem, countRoad_eq_count]

/-- If the last `common.card` entries of `l` all reference common roads, and
every common road occurs at most once in `l`, then after snipping those
entries no common road remains. -/
theorem take_no_common {l : List RoadSideID} {common : Finset Nat}
    (hle : common.card ≤ l.length)
    (hall : ∀ id ∈ l.drop (l.length - common.card), id.road ∈ common)
    (hcnt : ∀ r ∈ common, (roadsMS l).count r ≤ 1) :
    ∀ r ∈ common, (roadsMS (l.take (l.length - common.card))).count r = 0 := by
  intro r hr
  have hlsplit : roadsMS l = roadsMS (l.take (l.length - common.card)) +
      roadsMS (l.drop (l.length - common.card)) := by
    rw [← roadsMS_append, List.take_append_drop]
  have hdlen : (roadsMS (l.drop (l.length - common.card))).card = common.card := by
    unfold roadsMS
    simp
    omega
  have hsub : (roadsMS (l.drop (l.length - common.card))).toFinset ⊆ common := by
    intro x hx
    rw [Multiset.mem_toFinset] at hx
    unfold roadsMS at hx
    rw [Multiset.mem_coe, List.mem_map] at hx
    obtain ⟨id, hid, rfl⟩ := hx
    exact hall id hid
  have hsum : ∑ x ∈ common, (roadsMS (l.drop (l.length - common.card))).count x =
      common.card := by
    have h0 := Multiset.toFinset_sum_count_eq (roadsMS (l.drop (l.length - common.card)))
    have h1 : ∑ x ∈ common, (roadsMS (l.drop (l.length - common.card))).count x =
        ∑ x ∈ (roadsMS (l.drop (l.length - common.card))).toFinset,
          (roadsMS (l.drop (l.length - common.card))).count x :=
      (Finset.sum_subset hsub (fun x _ hx =>
        Multiset.count_eq_zero.mpr (fun hmem => hx (Multiset.mem_toFinset.mpr hmem)))).symm
    rw [h1, h0, hdlen]
  have heach_le : ∀ x ∈ common, (roadsMS (l.drop (l.length - common.card))).count x ≤ 1 := by
    intro x hx
    have h1 := hcnt x hx
    rw [hlsplit, Multiset.count_add] at h1
    omega
  have heach : ∀ x ∈ common, (roadsMS (l.drop (l.length - common.card))).count x = 1 := by
    by_contra hne
    push_neg at hne
    obtain ⟨x, hx, hxne⟩ := hne
    have hlt : (roadsMS (l.drop (l.length - common.card))).count x < 1 :=
      lt_of_le_of_ne (heach_le x hx) hxne
    have hslt : ∑ y ∈ common, (roadsMS (l.drop (l.length - common.card))).count y <
        ∑ _y ∈ common, (1 : Nat) :=
      Finset.sum_lt_sum heach_le ⟨x, hx, hlt⟩
    rw [hsum] at hslt
    simp at hslt
  have h1 := heach r hr
  have h2 := hcnt r hr
  rw [hlsplit, Multiset.count_add] at h2
  omega

/-- Everything the downstream invariants need about a successful merge. -/
theorem tryToMerge_true_facts {a b m b' : Perimeter}
    (h : tryToMerge a b = some (true, m, b')) :
    ClosedLoop m ∧
    roadsOf m = roadsOf a ∪ roadsOf b ∧
    (∀ r, countRoad m r ≤ countRoad a r + countRoad b r) ∧
    (∀ r ∈ m.interior, r ∈ a.interior ∨ r ∈ b.interior ∨
      2 ≤ countRoad a r + countRoad b r) ∧
    boundaryRoads m ⊆ boundaryRoads a ∪ boundaryRoads b := by
  obtain ⟨hca, hcb, _, htrue⟩ := tryToMerge_spec h
  obtain ⟨hb', k1, k2, pre, hcom, hle1, hle2, hall1, hall2, hlpre, hcpre, hipre, hcol⟩ :=
    htrue rfl
  obtain ⟨mm, hcm, hms, hmint⟩ := collapse_main hcol
  have hr1perm : roadsMS ((logicalRoads a).rotate k1) = roadsMS (logicalRoads a) :=
    roadsMS_perm ((logicalRoads a).rotate_perm k1)
  have hr2perm : roadsMS ((logicalRoads b).rotate k2) = roadsMS (logicalRoads b) :=
    roadsMS_perm ((logicalRoads b).rotate_perm k2)
  have hsplit1 : roadsMS (logicalRoads a) =
      roadsMS (((logicalRoads a).rotate k1).take
        ((logicalRoads a).length - (boundaryRoads a ∩ boundaryRoads b).card)) +
      roadsMS (((logicalRoads a).rotate k1).drop
        ((logicalRoads a).length - (boundaryRoads a ∩ boundaryRoads b).card)) := by
    rw [← hr1perm, ← roadsMS_append]
    congr 1
    rw [← List.length_rotate (logicalRoads a) k1]
    exact (List.take_append_drop _ _).symm
  have hsplit2 : roadsMS (logicalRoads b) =
      roadsMS (((logicalRoads b).rotate k2).take
        ((logicalRoads b).length - (boundaryRoads a ∩ boundaryRoads b).card)) +
      roadsMS (((logicalRoads b).rotate k2).drop
        ((logicalRoads b).length - (boundaryRoads a ∩ boundaryRoads b).card)) := by
    rw [← hr2perm, ← roadsMS_append]
    congr 1
    rw [← List.length_rotate (logicalRoads b) k2]
    exact (List.take_append_drop _ _).symm
  have hprems : roadsMS (logicalRoads pre) =
      roadsMS (((logicalRoads a).rotate k1).take
        ((logicalRoads a).length - (boundaryRoads a ∩ boundaryRoads b).card)) +
      roadsMS (((logicalRoads b).rotate k2).take
        ((logicalRoads b).length - (boundaryRoads a ∩ boundaryRoads b).card)) := by
    rw [hlpre, roadsMS_append]
  have hcount_pre : ∀ r, countRoad pre r ≤ countRoad a r + countRoad b r := by
    intro r
    rw [countRoad_eq_count, countRoad_eq_count, countRoad_eq_count,
      hprems, hsplit1, hsplit2]
    simp [Multiset.count_add]
    omega
  have hdrop1_sub : (roadsMS (((logicalRoads a).rotate k1).drop
      ((logicalRoads a).length - (boundaryRoads a ∩ boundaryRoads b).card))).toFinset ⊆
      boundaryRoads a ∩ boundaryRoads b := by
    intro x hx
    rw [Multiset.mem_toFinset] at hx
    unfold roadsMS at hx
    rw [Multiset.mem_coe, List.mem_map] at hx
    obtain ⟨id, hid, rfl⟩ := hx
    exact hall1 id hid
  have hdrop2_sub : (roadsMS (((logicalRoads b).rotate k2).drop
      ((logicalRoads b).length - (boundaryRoads a ∩ boundaryRoads b).card))).toFinset ⊆
      boundaryRoads a ∩ boundaryRoads b := by
    intro x hx
    rw [Multiset.mem_toFinset] at hx
    unfold roadsMS at hx
    rw [Multiset.mem_coe, List.mem_map] at hx
    obtain ⟨id, hid, rfl⟩ := hx
    exact hall2 id hid
  have hpre_roadsOf : roadsOf pre = roadsOf a ∪ roadsOf b := by
    unfold roadsOf
    rw [closed_boundaryRoads hcpre, closed_boundaryRoads hca, closed_boundaryRoads hcb,
      hipre]
    ext r
    simp only [Finset.mem_union, Multiset.mem_toFinset]
    constructor
    · rintro (hr | hr)
      · rw [hprems] at hr
        rw [Multiset.mem_add] at hr
        rcases hr with hr | hr
        · left; left
          rw [hsplit1, Multiset.mem_add]
          exact Or.inl hr
        · right; left
          rw [hsplit2, Multiset.mem_add]
          exact Or.inl hr
      · rcases hr with (hr | hr) | hr
        · left; right; exact hr
        · right; right; exact hr
        · left; left
          rw [← Multiset.mem_toFinset, ← closed_boundaryRoads hca]
          exact (Finset.mem_inter.mp hr).1
    · rintro ((hr | hr) | (hr | hr))
      · rw [hsplit1, Multiset.mem_add] at hr
        rcases hr with hr | hr
        · left
          rw [hprems, Multiset.mem_add]
          exact Or.inl hr
        · right; right
          exact hdrop1_sub (Multiset.mem_toFinset.mpr hr)
      · right; left; left; exact hr
      · rw [hsplit2, Multiset.mem_add] at hr
        rcases hr with hr | hr
        · left
          rw [hprems, Multiset.mem_add]
          exact Or.inr hr
        · right; right
          exact hdrop2_sub (Multiset.mem_toFinset.mpr hr)
      · right; left; right; exact hr
  refine ⟨hcm, ?_, ?_, ?_, ?_⟩
  · rw [collapse_roadsOf hcol, hpre_roadsOf]
  · intro r
    have h1 := collapse_count_le hcol r
    have h2 := hcount_pre r
    omega
  · intro r hr
    rw [hmint] at hr
    simp only [Finset.mem_union] at hr
    rcases hr with hr | hr
    · rw [hipre] at hr
      simp only [Finset.mem_union] at hr
      rcases hr with (hr | hr) | hr
      · exact Or.inl hr
      · exact Or.inr (Or.inl hr)
      · refine Or.inr (Or.inr ?_)
        rw [Finset.mem_inter] at hr
        have ha1 := (closed_mem_boundary_iff hca r).mp hr.1
        have hb1 := (closed_mem_boundary_iff hcb r).mp hr.2
        omega
    · refine Or.inr (Or.inr ?_)
      rw [Multiset.mem_toFinset, ← Multiset.one_le_count_iff_mem] at hr
      have h1 := collapse_count hms r
      have h2 := hcount_pre r
      omega
  · intro r hr
    rw [closed_boundaryRoads hcm, Multiset.mem_toFinset] at hr
    have hr' : r ∈ roadsMS (logicalRoads pre) := by
      rw [hms, Multiset.mem_add]
      exact Or.inl hr
    rw [hprems, Multiset.mem_add] at hr'
    rw [Finset.mem_union, closed_boundaryRoads hca, closed_boundaryRoads hcb,
      Multiset.mem_toFinset, Multiset.mem_toFinset]
    rcases hr' with hr' | hr'
    · left
      rw [hsplit1, Multiset.mem_add]
      exact Or.inl hr'
    · right
      rw [hsplit2, Multiset.mem_add]
      exact Or.inl hr'

/-- Merging two perimeters with no common road fails and leaves both exactly
unchanged (the undo/restore pair cancels). -/
theorem tryToMerge_empty_common {a b : Perimeter}
    (ha : ClosedLoop a) (hb : ClosedLoop b)
    (hdisj : boundaryRoads a ∩ boundaryRoads b = ∅) :
    tryToMerge a b = some (false, a, b) := by
  unfold tryToMerge
  rw [undoInvariant_of_closed ha, undoInvariant_of_closed hb]
  simp only [Option.bind_eq_bind, Option.some_bind]
  have hcom : (((logicalRoads a).map RoadSideID.road).toFinset ∩
      ((logicalRoads b).map RoadSideID.road).toFinset : Finset Nat) = ∅ := by
    rw [closed_boundaryRoads_list ha, closed_boundaryRoads_list hb]
    exact hdisj
  rw [if_pos hcom, restore_of_closed ha, restore_of_closed hb]
  simp only [Option.some_bind]
  rfl

/-- Everything the downstream invariants need about a failed merge: both
perimeters keep their road data (the boundary is only rotated). -/
theorem tryToMerge_false_facts {a b a' b' : Perimeter}
    (h : tryToMerge a b = some (false, a', b')) :
    ClosedLoop a' ∧ ClosedLoop b' ∧
    a'.interior = a.interior ∧ b'.interior = b.interior ∧
    roadsMS (logicalRoads a') = roadsMS (logicalRoads a) ∧
    roadsMS (logicalRoads b') = roadsMS (logicalRoads b) ∧
    boundaryRoads a' = boundaryRoads a ∧ boundaryRoads b' = boundaryRoads b ∧
    roadsOf a' = roadsOf a ∧ roadsOf b' = roadsOf b ∧
    (∀ r, countRoad a' r = countRoad a r) ∧ (∀ r, countRoad b' r = countRoad b r) := by
  obtain ⟨hca, hcb, hfalse, _⟩ := tryToMerge_spec h
  obtain ⟨hia, hib, hca', hcb', ⟨k1, hk1⟩, ⟨k2, hk2⟩⟩ := hfalse rfl
  have hmsa : roadsMS (logicalRoads a') = roadsMS (logicalRoads a) := by
    rw [hk1]
    exact roadsMS_perm ((logicalRoads a).rotate_perm k1)
  have hmsb : roadsMS (logicalRoads b') = roadsMS (logicalRoads b) := by
    rw [hk2]
    exact roadsMS_perm ((logicalRoads b).rotate_perm k2)
  have hba : boundaryRoads a' = boundaryRoads a := by
    rw [closed_boundaryRoads hca', closed_boundaryRoads hca, hmsa]
  have hbb : boundaryRoads b' = boundaryRoads b := by
    rw [closed_boundaryRoads hcb', closed_boundaryRoads hcb, hmsb]
  refine ⟨hca', hcb', hia, hib, hmsa, hmsb, hba, hbb, ?_, ?_, ?_, ?_⟩
  · unfold roadsOf
    rw [hba, hia]
  · unfold roadsOf
    rw [hbb, hib]
  · intro r
    rw [countRoad_eq_count, countRoad_eq_count, hmsa]
  · intro r
    rw [countRoad_eq_count, countRoad_eq_count, hmsb]

/-- Under the family hypotheses (own and cross interior/boundary
disjointness, each road traced at most twice between the two loops), a
successful merge keeps the interior disjoint from the boundary. -/
theorem tryToMerge_true_disjoint {a b m b' : Perimeter}
    (h : tryToMerge a b = some (true, m, b'))
    (hda : InteriorDisjoint a) (hdb : InteriorDisjoint b)
    (hab : a.interior ∩ boundaryRoads b = ∅) (hba : b.interior ∩ boundaryRoads a = ∅)
    (hcnt : ∀ r, countRoad a r + countRoad b r ≤ 2) :
    InteriorDisjoint m := by
  obtain ⟨hca, hcb, _, htrue⟩ := tryToMerge_spec h
  obtain ⟨hb', k1, k2, pre, hcom, hle1, hle2, hall1, hall2, hlpre, hcpre, hipre, hcol⟩ :=
    htrue rfl
  have hperm1 : roadsMS ((logicalRoads a).rotate k1) = roadsMS (logicalRoads a) :=
    roadsMS_perm ((logicalRoads a).rotate_perm k1)
  have hperm2 : roadsMS ((logicalRoads b).rotate k2) = roadsMS (logicalRoads b) :=
    roadsMS_perm ((logicalRoads b).rotate_perm k2)
  have hlen1 : ((logicalRoads a).rotate k1).length = (logicalRoads a).length :=
    List.length_rotate _ _
  have hlen2 : ((logicalRoads b).rotate k2).length = (logicalRoads b).length :=
    List.length_rotate _ _
  have hsplit1 : ∀ r, countRoad a r =
      (roadsMS (((logicalRoads a).rotate k1).take
        ((logicalRoads a).length - (boundaryRoads a ∩ boundaryRoads b).card))).count r +
      (roadsMS (((logicalRoads a).rotate k1).drop
        ((logicalRoads a).length - (boundaryRoads a ∩ boundaryRoads b).card))).count r := by
    intro r
    rw [countRoad_eq_count, ← hperm1]
    conv_lhs => rw [← List.take_append_drop
      ((logicalRoads a).length - (boundaryRoads a ∩ boundaryRoads b).card)
      ((logicalRoads a).rotate k1)]
    rw [roadsMS_append, Multiset.count_add]
  have hsplit2 : ∀ r, countRoad b r =
      (roadsMS (((logicalRoads b).rotate k2).take
        ((logicalRoads b).length - (boundaryRoads a ∩ boundaryRoads b).card))).count r +
      (roadsMS (((logicalRoads b).rotate k2).drop
        ((logicalRoads b).length - (boundaryRoads a ∩ boundaryRoads b).card))).count r := by
    intro r
    rw [countRoad_eq_count, ← hperm2]
    conv_lhs => rw [← List.take_append_drop
      ((logicalRoads b).length - (boundaryRoads a ∩ boundaryRoads b).card)
      ((logicalRoads b).rotate k2)]
    rw [roadsMS_append, Multiset.count_add]
  have hcommon_counts : ∀ r ∈ boundaryRoads a ∩ boundaryRoads b,
      countRoad a r = 1 ∧ countRoad b r = 1 := by
    intro r hr
    rw [Finset.mem_inter] at hr
    have h1 := (closed_mem_boundary_iff hca r).mp hr.1
    have h2 := (closed_mem_boundary_iff hcb r).mp hr.2
    have h3 := hcnt r
    omega
  have htake1 : ∀ r ∈ boundaryRoads a ∩ boundaryRoads b,
      (roadsMS (((logicalRoads a).rotate k1).take
        (((logicalRoads a).rotate k1).length -
          (boundaryRoads a ∩ boundaryRoads b).card))).count r = 0 := by
    apply take_no_common
    · rw [hlen1]; exact hle1
    · intro id hid
      rw [hlen1] at hid
      exact hall1 id hid
    · intro r hr
      rw [hperm1, ← countRoad_eq_count]
      exact le_of_eq (hcommon_counts r hr).1
  have htake2 : ∀ r ∈ boundaryRoads a ∩ boundaryRoads b,
      (roadsMS (((logicalRoads b).rotate k2).take
        (((logicalRoads b).rotate k2).length -
          (boundaryRoads a ∩ boundaryRoads b).card))).count r = 0 := by
    apply take_no_common
    · rw [hlen2]; exact hle2
    · intro id hid
      rw [hlen2] at hid
      exact hall2 id hid
    · intro r hr
      rw [hperm2, ← countRoad_eq_count]
      exact le_of_eq (hcommon_counts r hr).2
  rw [hlen1] at htake1
  rw [hlen2] at htake2
  have hprecount : ∀ r, countRoad pre r =
      (roadsMS (((logicalRoads a).rotate k1).take
        ((logicalRoads a).length - (boundaryRoads a ∩ boundaryRoads b).card))).count r +
      (roadsMS (((logicalRoads b).rotate k2).take
        ((logicalRoads b).length - (boundaryRoads a ∩ boundaryRoads b).card))).count r := by
    intro r
    rw [countRoad_eq_count, hlpre, roadsMS_append, Multiset.count_add]
  have hdpre : InteriorDisjoint pre := by
    unfold InteriorDisjoint
    rw [Finset.eq_empty_iff_forall_not_mem]
    intro r hr
    rw [Finset.mem_inter] at hr
    obtain ⟨hri, hrb⟩ := hr
    have hrc : 1 ≤ countRoad pre r := (closed_mem_boundary_iff hcpre r).mp hrb
    rw [hipre] at hri
    simp only [Finset.mem_union] at hri
    have hpc := hprecount r
    rcases hri with (hri | hri) | hri
    · have hna : countRoad a r = 0 := by
        by_contra hc
        have hmem : r ∈ boundaryRoads a := (closed_mem_boundary_iff hca r).mpr (by omega)
        exact (Finset.eq_empty_iff_forall_not_mem.mp hda r)
          (Finset.mem_inter.mpr ⟨hri, hmem⟩)
      have hnb : countRoad b r = 0 := by
        by_contra hc
        have : r ∈ boundaryRoads b := (closed_mem_boundary_iff hcb r).mpr (by omega)
        have := Finset.eq_empty_iff_forall_not_mem.mp hab r
        exact this (Finset.mem_inter.mpr ⟨hri, ‹r ∈ boundaryRoads b›⟩)
      have h1 := hsplit1 r
      have h2 := hsplit2 r
      omega
    · have hna : countRoad a r = 0 := by
        by_contra hc
        have : r ∈ boundaryRoads a := (closed_mem_boundary_iff hca r).mpr (by omega)
        have := Finset.eq_empty_iff_forall_not_mem.mp hba r
        exact this (Finset.mem_inter.mpr ⟨hri, ‹r ∈ boundaryRoads a›⟩)
      have hnb : countRoad b r = 0 := by
        by_contra hc
        have : r ∈ boundaryRoads b := (closed_mem_boundary_iff hcb r).mpr (by omega)
        have := Finset.eq_empty_iff_forall_not_mem.mp hdb r
        exact this (Finset.mem_inter.mpr ⟨hri, ‹r ∈ boundaryRoads b›⟩)
      have h1 := hsplit1 r
      have h2 := hsplit2 r
      omega
    · have h1 := htake1 r hri
      have h2 := htake2 r hri
      omega
  have hprele : ∀ r, countRoad pre r ≤ 2 := by
    intro r
    have h1 := hprecount r
    have h2 := hsplit1 r
    have h3 := hsplit2 r
    have h4 := hcnt r
    omega
  exact collapse_disjoint hdpre hprele hcol

@[simp] theorem countTotal_nil (r : Nat) : countTotal [] r = 0 := rfl

@[simp] theorem countTotal_cons (p : Perimeter) (l : List Perimeter) (r : Nat) :
    countTotal (p :: l) r = countRoad p r + countTotal l r := by
  unfold countTotal
  simp

@[simp] theorem countTotal_append (l1 l2 : List Perimeter) (r : Nat) :
    countTotal (l1 ++ l2) r = countTotal l1 r + countTotal l2 r := by
  unfold countTotal
  simp

theorem countRoad_le_countTotal {p : Perimeter} {l : List Perimeter}
    (hp : p ∈ l) (r : Nat) : countRoad p r ≤ countTotal l r := by
  induction l with
  | nil => simp at hp
  | cons q rest ih =>
    rcases List.mem_cons.mp hp with rfl | hp'
    · simp
    · have := ih hp'
      simp
      omega

@[simp] theorem unionRoads_nil : unionRoads [] = ∅ := rfl

@[simp] theorem unionRoads_cons (p : Perimeter) (l : List Perimeter) :
    unionRoads (p :: l) = roadsOf p ∪ unionRoads l := rfl

@[simp] theorem unionRoads_append (l1 l2 : List Perimeter) :
    unionRoads (l1 ++ l2) = unionRoads l1 ∪ unionRoads l2 := by
  induction l1 with
  | nil => simp
  | cons p rest ih => simp [ih, Finset.union_assoc]

theorem inter_empty_iff {s t : Finset Nat} : s ∩ t = ∅ ↔ ∀ r ∈ s, r ∉ t := by
  rw [Finset.eq_empty_iff_forall_not_mem]
  constructor
  · intro h r hr hrt
    exact h r (Finset.mem_inter.mpr ⟨hr, hrt⟩)
  · intro h r hr
    rw [Finset.mem_inter] at hr
    exact h r hr.1 hr.2

/-- Replacing one member of a good family by a loop with no more road data
(as `collapse_deadends` produces) keeps the family good. -/
theorem GF_replace_le {A B : List Perimeter} {o o1 : Perimeter}
    (h : GoodFamily (A ++ o :: B))
    (hc : ClosedLoop o1)
    (hd : InteriorDisjoint o1)
    (hb : boundaryRoads o1 ⊆ boundaryRoads o)
    (hcr : ∀ r, countRoad o1 r ≤ countRoad o r)
    (hint : ∀ r ∈ o1.interior, r ∈ o.interior ∨ 2 ≤ countRoad o r) :
    GoodFamily (A ++ o1 :: B) := by
  obtain ⟨hcl, hcross, hcnt⟩ := h
  have homem : o ∈ A ++ o :: B := by simp
  have hmem : ∀ z, z ∈ A ++ o1 :: B → z = o1 ∨ (z ∈ A ∨ z ∈ B) := by
    intro z hz
    rcases List.mem_append.mp hz with hz | hz
    · exact Or.inr (Or.inl hz)
    · rcases List.mem_cons.mp hz with rfl | hz
      · exact Or.inl rfl
      · exact Or.inr (Or.inr hz)
  have holdmem : ∀ z, (z ∈ A ∨ z ∈ B) → z ∈ A ++ o :: B := by
    intro z hz
    rcases hz with hz | hz <;> simp [hz]
  refine ⟨?_, ?_, ?_⟩
  · intro x hx
    rcases hmem x hx with rfl | hx'
    · exact hc
    · exact hcl x (holdmem x hx')
  · intro x hx y hy
    rcases hmem x hx with rfl | hxo
    · rcases hmem y hy with rfl | hyo
      · exact hd
      · rw [inter_empty_iff]
        intro r hr hrb
        rcases hint r hr with hr' | hr'
        · exact inter_empty_iff.mp (hcross o homem y (holdmem y hyo)) r hr' hrb
        · have h1 : 1 ≤ countRoad y r :=
            (closed_mem_boundary_iff (hcl y (holdmem y hyo)) r).mp hrb
          have h3 := hcnt r
          simp at h3
          rcases hyo with hy2 | hy2
          · have h4 := countRoad_le_countTotal hy2 r
            omega
          · have h4 := countRoad_le_countTotal hy2 r
            omega
    · rcases hmem y hy with rfl | hyo
      · rw [inter_empty_iff]
        intro r hr hrb
        exact inter_empty_iff.mp (hcross x (holdmem x hxo) o homem) r hr (hb hrb)
      · exact hcross x (holdmem x hxo) y (holdmem y hyo)
  · intro r
    have h1 := hcnt r
    have h2 := hcr r
    simp at h1 ⊢
    omega

/-- Fusing two members of a good family into one merged loop keeps the family
good. -/
theorem GF_merge {A B C : List Perimeter} {o p o1 : Perimeter}
    (h : GoodFamily (A ++ o :: (B ++ p :: C)))
    (hc : ClosedLoop o1)
    (hd : InteriorDisjoint o1)
    (hb : boundaryRoads o1 ⊆ boundaryRoads o ∪ boundaryRoads p)
    (hcr : ∀ r, countRoad o1 r ≤ countRoad o r + countRoad p r)
    (hint : ∀ r ∈ o1.interior, r ∈ o.interior ∨ r ∈ p.interior ∨
      2 ≤ countRoad o r + countRoad p r) :
    GoodFamily (A ++ o1 :: (B ++ C)) := by
  obtain ⟨hcl, hcross, hcnt⟩ := h
  have homem : o ∈ A ++ o :: (B ++ p :: C) := by simp
  have hpmem : p ∈ A ++ o :: (B ++ p :: C) := by simp
  have hmem : ∀ z, z ∈ A ++ o1 :: (B ++ C) → z = o1 ∨ (z ∈ A ∨ z ∈ B ∨ z ∈ C) := by
    intro z hz
    rcases List.mem_append.mp hz with hz | hz
    · exact Or.inr (Or.inl hz)
    · rcases List.mem_cons.mp hz with rfl | hz
      · exact Or.inl rfl
      · rcases List.mem_append.mp hz with hz | hz
        · exact Or.inr (Or.inr (Or.inl hz))
        · exact Or.inr (Or.inr (Or.inr hz))
  have holdmem : ∀ z, (z ∈ A ∨ z ∈ B ∨ z ∈ C) → z ∈ A ++ o :: (B ++ p :: C) := by
    intro z hz
    rcases hz with hz | hz | hz <;> simp [hz]
  have htot : ∀ r, countTotal A r + countRoad o r + countTotal B r + countRoad p r +
      countTotal C r ≤ 2 := by
    intro r
    have := hcnt r
    simp at this
    omega
  refine ⟨?_, ?_, ?_⟩
  · intro x hx
    rcases hmem x hx with rfl | hx'
    · exact hc
    · exact hcl x (holdmem x hx')
  · intro x hx y hy
    rcases hmem x hx with rfl | hxo
    · rcases hmem y hy with rfl | hyo
      · exact hd
      · rw [inter_empty_iff]
        intro r hr hrb
        rcases hint r hr with hr' | hr' | hr'
        · exact inter_empty_iff.mp (hcross o homem y (holdmem y hyo)) r hr' hrb
        · exact inter_empty_iff.mp (hcross p hpmem y (holdmem y hyo)) r hr' hrb
        · have h1 : 1 ≤ countRoad y r :=
            (closed_mem_boundary_iff (hcl y (holdmem y hyo)) r).mp hrb
          have h3 := htot r
          rcases hyo with hy2 | hy2 | hy2
          · have h4 := countRoad_le_countTotal hy2 r
            omega
          · have h4 := countRoad_le_countTotal hy2 r
            omega
          · have h4 := countRoad_le_countTotal hy2 r
            omega
    · rcases hmem y hy with rfl | hyo
      · rw [inter_empty_iff]
        intro r hr hrb
        rcases Finset.mem_union.mp (hb hrb) with hrb' | hrb'
        · exact inter_empty_iff.mp (hcross x (holdmem x hxo) o homem) r hr hrb'
        · exact inter_empty_iff.mp (hcross x (holdmem x hxo) p hpmem) r hr hrb'
      · exact hcross x (holdmem x hxo) y (holdmem y hyo)
  · intro r
    have h1 := htot r
    have h2 := hcr r
    simp
    omega

/-- Road conservation and loop accounting through the inner loop of a pass. -/
theorem tryMergeInto_spec : ∀ (results : List Perimeter) (p : Perimeter)
    {out : List Perimeter} {r : Option Perimeter},
    tryMergeInto results p = some (out, r) →
    (unionRoads out ∪ (match r with | some q => roadsOf q | none => ∅) =
      unionRoads results ∪ roadsOf p) ∧
    (∀ q ∈ results, ∃ q1 ∈ out, roadsOf q ⊆ roadsOf q1) ∧
    (r = none → ∃ q1 ∈ out, roadsOf p ⊆ roadsOf q1) ∧
    (∀ p1, r = some p1 → roadsOf p1 = roadsOf p) ∧
    out.length = results.length := by
  intro results
  induction results with
  | nil =>
    intro p out r h
    unfold tryMergeInto at h
    simp at h
    obtain ⟨rfl, rfl⟩ := h
    refine ⟨by simp, by simp, by simp, ?_, rfl⟩
    intro p1 hp1
    rw [Option.some.inj hp1]
  | cons o os ih =>
    intro p out r h
    unfold tryMergeInto at h
    cases hm : tryToMerge o p with
    | none => rw [hm] at h; simp at h
    | some v =>
      obtain ⟨s, o1, p1⟩ := v
      rw [hm] at h
      cases s with
      | true =>
        simp at h
        obtain ⟨rfl, rfl⟩ := h
        obtain ⟨hcm, huni, _, _, _⟩ := tryToMerge_true_facts hm
        refine ⟨?_, ?_, ?_, ?_, by simp⟩
        · simp [huni]
          ext x
          simp
          tauto
        · intro q hq
          rcases List.mem_cons.mp hq with rfl | hq
          · exact ⟨o1, by simp, by rw [huni]; exact Finset.subset_union_left⟩
          · exact ⟨q, by simp [hq], Finset.Subset.refl _⟩
        · intro _
          exact ⟨o1, by simp, by rw [huni]; exact Finset.subset_union_right⟩
        · intro p2 hp2
          exact absurd hp2 (by simp)
      | false =>
        cases hrec : tryMergeInto os p1 with
        | none => simp [hrec] at h
        | some w =>
          obtain ⟨os1, r1⟩ := w
          simp [hrec] at h
          obtain ⟨rfl, rfl⟩ := h
          obtain ⟨huni, hsub, hnone, hsome, hlen⟩ := ih p1 hrec
          obtain ⟨_, _, _, _, _, _, _, _, hro, hrp, _, _⟩ := tryToMerge_false_facts hm
          refine ⟨?_, ?_, ?_, ?_, by simp [hlen]⟩
          · simp only [unionRoads_cons, Finset.union_assoc, hro]
            rw [huni, hrp]
          · intro q hq
            rcases List.mem_cons.mp hq with rfl | hq
            · exact ⟨o1, by simp, by rw [hro]⟩
            · obtain ⟨q1, hq1, hq2⟩ := hsub q hq
              exact ⟨q1, by simp [hq1], hq2⟩
          · intro hr
            obtain ⟨q1, hq1, hq2⟩ := hnone hr
            exact ⟨q1, by simp [hq1], by rw [← hrp]; exact hq2⟩
          · intro p2 hp2
            rw [hsome p2 hp2, hrp]

/-- The family invariant survives the inner loop of a pass. -/
theorem tryMergeInto_GF : ∀ (results : List Perimeter) (p : Perimeter)
    (ctxL ctxR : List Perimeter) {out : List Perimeter} {r : Option Perimeter},
    tryMergeInto results p = some (out, r) →
    GoodFamily (ctxL ++ results ++ p :: ctxR) →
    GoodFamily (ctxL ++ out ++ r.toList ++ ctxR) := by
  intro results
  induction results with
  | nil =>
    intro p ctxL ctxR out r h hgf
    unfold tryMergeInto at h
    simp at h
    obtain ⟨rfl, rfl⟩ := h
    simpa using hgf
  | cons o os ih =>
    intro p ctxL ctxR out r h hgf
    unfold tryMergeInto at h
    cases hm : tryToMerge o p with
    | none => rw [hm] at h; simp at h
    | some v =>
      obtain ⟨s, o1, p1⟩ := v
      rw [hm] at h
      have homem : o ∈ ctxL ++ (o :: os) ++ p :: ctxR := by simp
      have hpmem : p ∈ ctxL ++ (o :: os) ++ p :: ctxR := by simp
      have hgf' : GoodFamily (ctxL ++ o :: (os ++ p :: ctxR)) := by
        simpa [List.append_assoc] using hgf
      cases s with
      | true =>
        simp at h
        obtain ⟨rfl, rfl⟩ := h
        obtain ⟨hcm, _, hcnt', hint', hbsub⟩ := tryToMerge_true_facts hm
        have hda : InteriorDisjoint o := hgf.2.1 o homem o homem
        have hdb : InteriorDisjoint p := hgf.2.1 p hpmem p hpmem
        have hab : o.interior ∩ boundaryRoads p = ∅ := hgf.2.1 o homem p hpmem
        have hba : p.interior ∩ boundaryRoads o = ∅ := hgf.2.1 p hpmem o homem
        have hcnt2 : ∀ r, countRoad o r + countRoad p r ≤ 2 := by
          intro r
          have h1 := hgf'.2.2 r
          simp at h1
          omega
        have hd1 : InteriorDisjoint o1 := tryToMerge_true_disjoint hm hda hdb hab hba hcnt2
        have := GF_merge hgf' hcm hd1 hbsub hcnt' hint'
        simpa [List.append_assoc] using this
      | false =>
        cases hrec : tryMergeInto os p1 with
        | none => simp [hrec] at h
        | some w =>
          obtain ⟨os1, r1⟩ := w
          simp [hrec] at h
          obtain ⟨rfl, rfl⟩ := h
          obtain ⟨hc1, hc2, hi1, hi2, _, _, hb1, hb2, _, _, hcr1, hcr2⟩ :=
            tryToMerge_false_facts hm
          have hda : InteriorDisjoint o := hgf.2.1 o homem o homem
          have hdb : InteriorDisjoint p := hgf.2.1 p hpmem p hpmem
          have hd1 : InteriorDisjoint o1 := by
            unfold InteriorDisjoint at hda ⊢
            rw [hi1, hb1]
            exact hda
          have hd2 : InteriorDisjoint p1 := by
            unfold InteriorDisjoint at hdb ⊢
            rw [hi2, hb2]
            exact hdb
          have hstep1 : GoodFamily (ctxL ++ o1 :: (os ++ p :: ctxR)) :=
            GF_replace_le hgf' hc1 hd1 (hb1 ▸ Finset.Subset.refl _)
              (fun r => le_of_eq (hcr1 r))
              (fun r hr => Or.inl (hi1 ▸ hr))
          have hstep1' : GoodFamily ((ctxL ++ o1 :: os) ++ p :: ctxR) := by
            simpa [List.append_assoc] using hstep1
          have hstep2 : GoodFamily ((ctxL ++ o1 :: os) ++ p1 :: ctxR) :=
            GF_replace_le hstep1' hc2 hd2 (hb2 ▸ Finset.Subset.refl _)
              (fun r => le_of_eq (hcr2 r))
              (fun r hr => Or.inl (hi2 ▸ hr))
          have hpre : GoodFamily ((ctxL ++ [o1]) ++ os ++ p1 :: ctxR) := by
            simpa [List.append_assoc] using hstep2
          have := ih p1 (ctxL ++ [o1]) ctxR hrec hpre
          simpa [List.append_assoc] using this

theorem collapse_bsub {p q : Perimeter} (h : collapse_deadends p = some q) :
    boundaryRoads q ⊆ boundaryRoads p := by
  obtain ⟨m, hcq, hms, _⟩ := collapse_main h
  have hcp := collapse_closed_src h
  rw [closed_boundaryRoads hcq, closed_boundaryRoads hcp, hms]
  intro r hr
  rw [Multiset.mem_toFinset] at hr ⊢
  rw [Multiset.mem_add]
  exact Or.inl hr

theorem collapse_interior_cases {p q : Perimeter} (h : collapse_deadends p = some q) :
    ∀ r ∈ q.interior, r ∈ p.interior ∨ 2 ≤ countRoad p r := by
  intro r hr
  have := collapse_interior_sub h hr
  rw [Finset.mem_union] at this
  rcases this with hr' | hr'
  · exact Or.inl hr'
  · rw [Finset.mem_filter] at hr'
    exact Or.inr (by simpa using hr'.2)

/-- Road conservation and loop accounting through one full pass. -/
theorem mergePassGo_spec : ∀ (sw : Bool) (rest results : List Perimeter)
    (debug : Bool) {out : List Perimeter},
    mergePassGo sw rest results debug = some out →
    unionRoads out = unionRoads results ∪ unionRoads rest ∧
    (∀ q ∈ results ++ rest, ∃ q1 ∈ out, roadsOf q ⊆ roadsOf q1) ∧
    out.length ≤ results.length + rest.length := by
  intro sw rest
  induction rest with
  | nil =>
    intro results debug out h
    unfold mergePassGo at h
    simp at h
    subst h
    refine ⟨by simp, ?_, by simp⟩
    intro q hq
    simp at hq
    exact ⟨q, hq, Finset.Subset.refl _⟩
  | cons p rest ih =>
    intro results debug out h
    unfold mergePassGo at h
    cases debug with
    | true =>
      rw [if_pos rfl] at h
      obtain ⟨huni, hsub, hlen⟩ := ih (results ++ [p]) true h
      refine ⟨?_, ?_, ?_⟩
      · rw [huni]
        simp [Finset.union_assoc]
      · intro q hq
        apply hsub
        simp at hq ⊢
        tauto
      · simp at hlen ⊢
        omega
    | false =>
      rw [if_neg (by simp)] at h
      cases hti : tryMergeInto results p with
      | none => rw [hti] at h; simp at h
      | some w =>
        obtain ⟨results1, r⟩ := w
        rw [hti] at h
        obtain ⟨htiu, htisub, htinone, htisome, htilen⟩ := tryMergeInto_spec results p hti
        cases r with
        | none =>
          obtain ⟨huni, hsub, hlen⟩ := ih results1 sw h
          have hu1 : unionRoads results1 = unionRoads results ∪ roadsOf p := by
            simpa using htiu
          refine ⟨?_, ?_, ?_⟩
          · rw [huni, hu1]
            ext x
            simp only [unionRoads_cons, Finset.mem_union]
            tauto
          · intro q hq
            simp at hq
            rcases hq with hq | rfl | hq
            · obtain ⟨mid, hmid1, hmid2⟩ := htisub q hq
              obtain ⟨fin, hfin1, hfin2⟩ := hsub mid (by simp [hmid1])
              exact ⟨fin, hfin1, hmid2.trans hfin2⟩
            · obtain ⟨mid, hmid1, hmid2⟩ := htinone rfl
              obtain ⟨fin, hfin1, hfin2⟩ := hsub mid (by simp [hmid1])
              exact ⟨fin, hfin1, hmid2.trans hfin2⟩
            · obtain ⟨fin, hfin1, hfin2⟩ := hsub q (by simp [hq])
              exact ⟨fin, hfin1, hfin2⟩
          · simp [htilen] at hlen ⊢
            omega
        | some p1 =>
          obtain ⟨huni, hsub, hlen⟩ := ih (results1 ++ [p1]) false h
          have hp1 : roadsOf p1 = roadsOf p := htisome p1 rfl
          have hu1 : unionRoads results1 ∪ roadsOf p1 = unionRoads results ∪ roadsOf p := by
            simpa using htiu
          refine ⟨?_, ?_, ?_⟩
          · rw [huni]
            simp only [unionRoads_append, unionRoads_cons, unionRoads_nil]
            rw [Finset.union_empty, hu1]
            simp [Finset.union_assoc]
          · intro q hq
            simp at hq
            rcases hq with hq | rfl | hq
            · obtain ⟨mid, hmid1, hmid2⟩ := htisub q hq
              obtain ⟨fin, hfin1, hfin2⟩ := hsub mid (by simp [hmid1])
              exact ⟨fin, hfin1, hmid2.trans hfin2⟩
            · obtain ⟨fin, hfin1, hfin2⟩ := hsub p1 (by simp)
              exact ⟨fin, hfin1, by rw [← hp1]; exact hfin2⟩
            · obtain ⟨fin, hfin1, hfin2⟩ := hsub q (by simp [hq])
              exact ⟨fin, hfin1, hfin2⟩
          · simp [htilen] at hlen ⊢
            omega

/-- The family invariant survives one full pass. -/
theorem mergePassGo_GF : ∀ (sw : Bool) (rest results : List Perimeter)
    (debug : Bool) {out : List Perimeter},
    mergePassGo sw rest results debug = some out →
    GoodFamily (results ++ rest) → GoodFamily out := by
  intro sw rest
  induction rest with
  | nil =>
    intro results debug out h hgf
    unfold mergePassGo at h
    simp at h
    subst h
    simpa using hgf
  | cons p rest ih =>
    intro results debug out h hgf
    unfold mergePassGo at h
    cases debug with
    | true =>
      rw [if_pos rfl] at h
      apply ih (results ++ [p]) true h
      simpa [List.append_assoc] using hgf
    | false =>
      rw [if_neg (by simp)] at h
      cases hti : tryMergeInto results p with
      | none => rw [hti] at h; simp at h
      | some w =>
        obtain ⟨results1, r⟩ := w
        rw [hti] at h
        have hgf1 : GoodFamily (([] : List Perimeter) ++ results ++ p :: rest) := by
          simpa using hgf
        have hgf2 := tryMergeInto_GF results p [] rest hti hgf1
        cases r with
        | none =>
          apply ih results1 sw h
          simpa using hgf2
        | some p1 =>
          apply ih (results1 ++ [p1]) false h
          simpa [List.append_assoc] using hgf2

theorem mergeOnePass_spec {sw : Bool} {input out : List Perimeter}
    (h : mergeOnePass sw input = some out) :
    unionRoads out = unionRoads input ∧
    (∀ q ∈ input, ∃ q1 ∈ out, roadsOf q ⊆ roadsOf q1) ∧
    out.length ≤ input.length := by
  obtain ⟨huni, hsub, hlen⟩ := mergePassGo_spec sw input [] false h
  refine ⟨by simpa using huni, fun q hq => hsub q (by simpa using hq), by simpa using hlen⟩

theorem mergeOnePass_GF {sw : Bool} {input out : List Perimeter}
    (h : mergeOnePass sw input = some out) (hgf : GoodFamily input) :
    GoodFamily out :=
  mergePassGo_GF sw input [] false h (by simpa using hgf)

theorem mergeAllAux_spec : ∀ (fuel : Nat) (sw : Bool) (input : List Perimeter)
    {out : List Perimeter},
    mergeAllAux sw fuel input = some out →
    unionRoads out = unionRoads input ∧
    (∀ q ∈ input, ∃ q1 ∈ out, roadsOf q ⊆ roadsOf q1) ∧
    out.length ≤ input.length := by
  intro fuel
  induction fuel with
  | zero =>
    intro sw input out h
    unfold mergeAllAux at h
    simp at h
  | succ f ih =>
    intro sw input out h
    unfold mergeAllAux at h
    simp only [Option.bind_eq_bind, Option.bind_eq_some] at h
    obtain ⟨results, hres, h⟩ := h
    obtain ⟨huni, hsub, hlen⟩ := mergeOnePass_spec hres
    by_cases hcond : (1 < results.length ∧ results.length < input.length ∧ sw = false)
    · rw [if_pos hcond] at h
      obtain ⟨huni2, hsub2, hlen2⟩ := ih sw results h
      refine ⟨by rw [huni2, huni], ?_, by omega⟩
      intro q hq
      obtain ⟨mid, hmid1, hmid2⟩ := hsub q hq
      obtain ⟨fin, hfin1, hfin2⟩ := hsub2 mid hmid1
      exact ⟨fin, hfin1, hmid2.trans hfin2⟩
    · rw [if_neg hcond] at h
      simp at h
      subst h
      exact ⟨huni, hsub, hlen⟩

theorem mergeAllAux_GF : ∀ (fuel : Nat) (sw : Bool) (input : List Perimeter)
    {out : List Perimeter},
    mergeAllAux sw fuel input = some out → GoodFamily input → GoodFamily out := by
  intro fuel
  induction fuel with
  | zero =>
    intro sw input out h
    unfold mergeAllAux at h
    simp at h
  | succ f ih =>
    intro sw input out h hgf
    unfold mergeAllAux at h
    simp only [Option.bind_eq_bind, Option.bind_eq_some] at h
    obtain ⟨results, hres, h⟩ := h
    have hgf1 := mergeOnePass_GF hres hgf
    by_cases hcond : (1 < results.length ∧ results.length < input.length ∧ sw = false)
    · rw [if_pos hcond] at h
      exact ih sw results h hgf1
    · rw [if_neg hcond] at h
      simp at h
      subst h
      exact hgf1

theorem collapseAll_spec : ∀ (input : List Perimeter) {out : List Perimeter},
    collapseAll input = some out →
    unionRoads out = unionRoads input ∧
    (∀ p ∈ input, ∃ q ∈ out, roadsOf p ⊆ roadsOf q) ∧
    out.length = input.length := by
  intro input
  induction input with
  | nil =>
    intro out h
    unfold collapseAll at h
    simp at h
    subst h
    exact ⟨rfl, by simp, rfl⟩
  | cons p rest ih =>
    intro out h
    unfold collapseAll at h
    cases hc : collapse_deadends p with
    | none => rw [hc] at h; simp at h
    | some q =>
      rw [hc] at h
      cases hr : collapseAll rest with
      | none => rw [hr] at h; simp at h
      | some qs =>
        rw [hr] at h
        simp at h
        subst h
        obtain ⟨huni, hsub, hlen⟩ := ih hr
        have hro : roadsOf q = roadsOf p := collapse_roadsOf hc
        refine ⟨by simp [huni, hro], ?_, by simp [hlen]⟩
        intro x hx
        rcases List.mem_cons.mp hx with rfl | hx
        · exact ⟨q, by simp, by rw [hro]⟩
        · obtain ⟨y, hy1, hy2⟩ := hsub x hx
          exact ⟨y, by simp [hy1], hy2⟩

theorem collapseAll_GF : ∀ (pref input : List Perimeter) {out : List Perimeter},
    collapseAll input = some out →
    GoodFamily (pref ++ input) → GoodFamily (pref ++ out) := by
  intro pref input
  induction input generalizing pref with
  | nil =>
    intro out h hgf
    unfold collapseAll at h
    simp at h
    subst h
    exact hgf
  | cons p rest ih =>
    intro out h hgf
    unfold collapseAll at h
    cases hc : collapse_deadends p with
    | none => rw [hc] at h; simp at h
    | some q =>
      rw [hc] at h
      cases hr : collapseAll rest with
      | none => rw [hr] at h; simp at h
      | some qs =>
        rw [hr] at h
        simp at h
        subst h
        have hpmem : p ∈ pref ++ p :: rest := by simp
        have hdp : InteriorDisjoint p := hgf.2.1 p hpmem p hpmem
        have hcntp : ∀ r, countRoad p r ≤ 2 := by
          intro r
          have h1 := hgf.2.2 r
          have h2 := countRoad_le_countTotal hpmem r
          omega
        obtain ⟨m, hcq, _, _⟩ := collapse_main hc
        have hstep : GoodFamily (pref ++ q :: rest) :=
          GF_replace_le hgf hcq (collapse_disjoint hdp hcntp hc) (collapse_bsub hc)
            (collapse_count_le hc) (collapse_interior_cases hc)
        have hstep' : GoodFamily ((pref ++ [q]) ++ rest) := by
          simpa [List.append_assoc] using hstep
        have := ih (pref ++ [q]) hr hstep'
        simpa [List.append_assoc] using this

/-- Road-set conservation and loop accounting through `merge_all`. -/
theorem merge_all_spec {sw : Bool} {input out : List Perimeter}
    (h : merge_all sw input = some out) :
    unionRoads out = unionRoads input ∧
    (∀ p ∈ input, ∃ q ∈ out, roadsOf p ⊆ roadsOf q) ∧
    out.length ≤ input.length := by
  unfold merge_all at h
  simp only [Option.bind_eq_bind, Option.bind_eq_some] at h
  obtain ⟨collapsed, hcol, h⟩ := h
  obtain ⟨huni1, hsub1, hlen1⟩ := collapseAll_spec input hcol
  obtain ⟨huni2, hsub2, hlen2⟩ := mergeAllAux_spec _ sw collapsed h
  refine ⟨by rw [huni2, huni1], ?_, by omega⟩
  intro p hp
  obtain ⟨mid, hmid1, hmid2⟩ := hsub1 p hp
  obtain ⟨fin, hfin1, hfin2⟩ := hsub2 mid hmid1
  exact ⟨fin, hfin1, hmid2.trans hfin2⟩

/-- The family invariant survives `merge_all` entirely. -/
theorem merge_all_GF {sw : Bool} {input out : List Perimeter}
    (h : merge_all sw input = some out) (hgf : GoodFamily input) :
    GoodFamily out := by
  unfold merge_all at h
  simp only [Option.bind_eq_bind, Option.bind_eq_some] at h
  obtain ⟨collapsed, hcol, h⟩ := h
  have hgf1 : GoodFamily collapsed := by
    have := collapseAll_GF [] input hcol (by simpa using hgf)
    simpa using this
  exact mergeAllAux_GF _ sw collapsed h hgf1

/-- The outer loop of `merge_all` stabilizes within `input.length + 1` passes:
any larger fuel computes the same result, because a further pass is taken
only when the previous one strictly shrank the list. -/
theorem mergeAllAux_fuel_stable : ∀ (fuel : Nat) (sw : Bool) (input : List Perimeter),
    input.length + 1 ≤ fuel →
    mergeAllAux sw fuel input = mergeAllAux sw (input.length + 1) input := by
  intro fuel
  induction fuel using Nat.strong_induction_on with
  | _ fuel ih =>
    intro sw input hle
    obtain ⟨f, rfl⟩ : ∃ f, fuel = f + 1 := ⟨fuel - 1, by omega⟩
    show mergeAllAux sw (f + 1) input = mergeAllAux sw (input.length + 1) input
    unfold mergeAllAux
    cases hp : mergeOnePass sw input with
    | none => simp [hp]
    | some results =>
      simp only [hp, Option.bind_eq_bind, Option.some_bind]
      by_cases hcond : (1 < results.length ∧ results.length < input.length ∧ sw = false)
      · rw [if_pos hcond, if_pos hcond]
        have hlr : results.length < input.length := hcond.2.1
        have h1 : mergeAllAux sw f results = mergeAllAux sw (results.length + 1) results := by
          apply ih f (by omega) sw results
          omega
        have h2 : mergeAllAux sw input.length results =
            mergeAllAux sw (results.length + 1) results := by
          apply ih input.length (by omega) sw results
          omega
        rw [h1, h2]
      · rw [if_neg hcond, if_neg hcond]

/-- Invariant analysis of the tracing loop: the only error is the boundary
bail, and a successful trace returns `acc` extended by the walked sides and
explicitly closed with the starting side. -/
theorem singleBlockAux_spec : ∀ (m : TraceMap) (startSide : RoadSideID) (fuel : Nat)
    (current : RoadSideID) (inter : Nat) (acc : List RoadSideID)
    {res : Except String Perimeter},
    singleBlockAux m startSide fuel current inter acc = some res →
    (∀ e, res = Except.error e → e = "hit the map boundary") ∧
    ((∀ j, m.isBorder j = false) → ∃ p, res = Except.ok p) ∧
    (∀ p, res = Except.ok p → p.interior = ∅ ∧
      ∃ ext, p.roads = acc ++ (current :: ext) ++ [startSide]) := by
  intro m startSide fuel
  induction fuel with
  | zero =>
    intro current inter acc res h
    unfold singleBlockAux at h
    simp at h
  | succ f ih =>
    intro current inter acc res h
    unfold singleBlockAux at h
    cases hB : m.isBorder inter with
    | true =>
      simp only [hB, if_true] at h
      simp at h
      refine ⟨?_, ?_, ?_⟩
      · intro e he
        rw [← h] at he
        exact (Except.error.inj he).symm
      · intro hnb
        exact absurd (hnb inter) (by rw [hB]; simp)
      · intro p hp
        rw [← h] at hp
        exact absurd hp (by simp)
    | false =>
      simp only [hB, Bool.false_eq_true, if_false] at h
      cases hidx : (m.sortedSides inter).findIdx? (fun x => x == current) with
      | none => simp [hidx] at h
      | some idx =>
        simp only [hidx] at h
        cases hw1 : wraparoundGet (m.sortedSides inter) ((idx : Int) + 1) with
        | none => simp [hw1] at h
        | some next1 =>
          simp only [hw1] at h
          by_cases hne1 : next1 = current
          · rw [if_pos hne1] at h
            simp at h
          · rw [if_neg hne1] at h
            cases hnxt : (if next1.road = current.road then
                match wraparoundGet (m.sortedSides inter) ((idx : Int) - 1) with
                | none => none
                | some next2 =>
                  if next2 = current then none
                  else if next2.road = current.road && (m.sortedSides inter).length != 2
                  then none
                  else some next2
              else some next1) with
            | none =>
              rw [hnxt] at h
              simp at h
            | some nxt =>
              simp only [hnxt] at h
              by_cases hstart : nxt = startSide
              · rw [if_pos hstart] at h
                simp at h
                refine ⟨?_, ?_, ?_⟩
                · intro e he
                  rw [← h] at he
                  exact absurd he (by simp)
                · intro _
                  exact ⟨_, h.symm⟩
                · intro p hp
                  rw [← h] at hp
                  have := Except.ok.inj hp
                  refine ⟨by rw [← this], ⟨[], ?_⟩⟩
                  rw [← this]
                  simp
              · rw [if_neg hstart] at h
                obtain ⟨h1, h2, h3⟩ := ih nxt (m.otherEndpt nxt.road inter) (acc ++ [current]) h
                refine ⟨h1, h2, ?_⟩
                intro p hp
                obtain ⟨hint, ext, hext⟩ := h3 p hp
                refine ⟨hint, nxt :: ext, ?_⟩
                rw [hext]
                simp

theorem single_block_ok {m : TraceMap} {s : RoadSideID} {i fuel : Nat} {p : Perimeter}
    (h : single_block m s i fuel = some (Except.ok p)) :
    ClosedLoop p ∧ InteriorDisjoint p ∧ p.roads.head? = some s ∧
    p.roads.getLast? = some s ∧ p.interior = ∅ := by
  obtain ⟨_, _, h3⟩ := singleBlockAux_spec m s fuel s i [] h
  obtain ⟨hint, ext, hext⟩ := h3 p rfl
  simp at hext
  have hhead : p.roads.head? = some s := by rw [hext]; simp
  have hlast : p.roads.getLast? = some s := by
    rw [hext]
    rw [show s :: (ext ++ [s]) = (s :: ext) ++ [s] by simp]
    exact List.getLast?_concat _
  refine ⟨⟨?_, by rw [hhead, hlast]⟩, ?_, hhead, hlast, hint⟩
  · rw [hext]
    simp
  · unfold InteriorDisjoint
    rw [hint]
    simp

theorem single_block_error {m : TraceMap} {s : RoadSideID} {i fuel : Nat} {e : String}
    (h : single_block m s i fuel = some (Except.error e)) :
    e = "hit the map boundary" :=
  (singleBlockAux_spec m s fuel s i [] h).1 e rfl

theorem single_block_no_border {m : TraceMap} {s : RoadSideID} {i fuel : Nat}
    {res : Except String Perimeter} (hnb : ∀ j, m.isBorder j = false)
    (h : single_block m s i fuel = some res) : ∃ p, res = Except.ok p :=
  (singleBlockAux_spec m s fuel s i [] h).2.1 hnb

theorem findAllAux_good {m : TraceMap} {fuel : Nat} :
    ∀ (lanes : List LaneInfo) (seen : Finset RoadSideID) (acc : List Perimeter)
    {out : List Perimeter},
    findAllAux m fuel lanes seen acc = some out →
    (∀ p ∈ acc, ClosedLoop p ∧ InteriorDisjoint p) →
    ∀ p ∈ out, ClosedLoop p ∧ InteriorDisjoint p := by
  intro lanes
  induction lanes with
  | nil =>
    intro seen acc out h hacc
    unfold findAllAux at h
    simp at h
    subst h
    exact hacc
  | cons lane rest ih =>
    intro seen acc out h hacc
    unfold findAllAux at h
    by_cases hseen : lane.nearestSide ∈ seen
    · rw [if_pos hseen] at h
      exact ih seen acc h hacc
    · rw [if_neg hseen] at h
      cases hsb : single_block m lane.nearestSide lane.dstI fuel with
      | none => rw [hsb] at h; simp at h
      | some res =>
        cases res with
        | ok p =>
          simp only [hsb] at h
          refine ih _ _ h ?_
          intro q hq
          rcases List.mem_append.mp hq with hq | hq
          · exact hacc q hq
          · rcases List.mem_singleton.mp hq with rfl
            obtain ⟨h1, h2, _, _, _⟩ := single_block_ok hsb
            exact ⟨h1, h2⟩
        | error e =>
          simp only [hsb] at h
          exact ih _ _ h hacc

theorem mem_roadToPerimeters {input : List Perimeter} {r : Nat} {j : Nat} :
    j ∈ roadToPerimeters input r ↔
    j < input.length ∧ r ∈ boundaryRoads (input.getD j default) := by
  unfold roadToPerimeters
  simp only [List.mem_bind, List.mem_range, List.mem_map, List.mem_filter]
  constructor
  · rintro ⟨i, hi, id, ⟨hid, hidr⟩, rfl⟩
    refine ⟨hi, ?_⟩
    rw [mem_boundaryRoads]
    exact ⟨id, hid, by simpa using hidr⟩
  · rintro ⟨hj, hr⟩
    rw [mem_boundaryRoads] at hr
    obtain ⟨id, hid, hidr⟩ := hr
    exact ⟨j, hj, id, ⟨hid, by simpa using hidr⟩, rfl⟩

theorem mem_usedColors {input : List Perimeter} {p : Perimeter} {thisIdx : Nat}
    {assigned : List Nat} {c : Nat} :
    c ∈ usedColors input p thisIdx assigned ↔
    ∃ j, j < thisIdx ∧ j < input.length ∧
      SharesRoad p (input.getD j default) ∧ assigned.getD j 0 = c := by
  unfold usedColors
  simp only [List.mem_map, List.mem_bind, List.mem_filter, decide_eq_true_eq]
  constructor
  · rintro ⟨o, ⟨id, hid, ho, holt⟩, rfl⟩
    rw [mem_roadToPerimeters] at ho
    exact ⟨o, holt, ho.1,
      ⟨id.road, mem_boundaryRoads.mpr ⟨id, hid, rfl⟩, ho.2⟩, rfl⟩
  · rintro ⟨j, hlt, hjn, ⟨r, hrp, hrj⟩, rfl⟩
    obtain ⟨id, hid, rfl⟩ := mem_boundaryRoads.mp hrp
    exact ⟨j, ⟨id, hid, mem_roadToPerimeters.mpr ⟨hjn, hrj⟩, hlt⟩, rfl⟩

theorem getD_of_getElem? {α : Type} {l : List α} {n : Nat} {a d : α}
    (h : l[n]? = some a) : l.getD n d = a := by
  simp [List.getD_eq_getElem?_getD, h]

/-- The greedy coloring loop establishes the `GreedyAt` contract at every
index it colors, extending `assigned` by exactly one color per loop. -/
theorem coloringGo_spec : ∀ (input : List Perimeter) (k : Nat) (rest : List Perimeter)
    (ti : Nat) (assigned : List Nat) {colors : List Nat},
    coloringGo input k rest ti assigned = some colors →
    rest = input.drop ti →
    assigned.length = ti →
    ti ≤ input.length →
    colors.length = input.length ∧
    (∃ suffix, colors = assigned ++ suffix) ∧
    (∀ i, ti ≤ i → i < input.length → GreedyAt input k colors i) := by
  intro input k rest
  induction rest with
  | nil =>
    intro ti assigned colors h hdrop hlen hle
    unfold coloringGo at h
    simp at h
    subst h
    have hti : input.length ≤ ti := by
      by_contra hc
      push_neg at hc
      have := List.drop_eq_nil_iff_le.mp hdrop.symm
      omega
    refine ⟨by omega, ⟨[], by simp⟩, ?_⟩
    intro i h1 h2
    omega
  | cons p rest' ih =>
    intro ti assigned colors h hdrop hlen hle
    unfold coloringGo at h
    cases hfind : (List.range k).find?
        (fun c => !(usedColors input p ti assigned).contains c) with
    | none => rw [hfind] at h; simp at h
    | some c =>
      rw [hfind] at h
      have hget : input[ti]? = some p := by
        have h0 : (input.drop ti)[0]? = some p := by rw [← hdrop]; simp
        rwa [List.getElem?_drop, Nat.add_zero] at h0
      have htilt : ti < input.length := by
        by_contra hc
        push_neg at hc
        rw [List.getElem?_eq_none (by omega)] at hget
        simp at hget
      have hgetD : input.getD ti default = p := getD_of_getElem? hget
      have hrest' : rest' = input.drop (ti + 1) := by
        have h1 : input.drop (ti + 1) = (input.drop ti).drop 1 := by
          rw [List.drop_drop]
        rw [h1, ← hdrop]
        rfl
      obtain ⟨hclen, ⟨suffix, hsfx⟩, hgreedy⟩ :=
        ih (ti + 1) (assigned ++ [c]) h hrest' (by simp [hlen]) (by omega)
      obtain ⟨hck, hcnot, hcleast⟩ := find_range_some hfind
      have hcmem : c ∉ usedColors input p ti assigned := by
        intro hc
        rw [Bool.not_eq_eq_eq_not, Bool.not_true] at hcnot
        have : c ∈ usedColors input p ti assigned → False := by
          intro hmem
          have helemc := @List.elem_iff _ _ _ c (usedColors input p ti assigned)
          rw [← helemc] at hmem
          rw [show (usedColors input p ti assigned).contains c = (usedColors input p ti assigned).elem c from rfl] at hcnot
          rw [hmem] at hcnot
          simp at hcnot
        exact this hc
      have hcolorsD : ∀ j, j < ti → colors.getD j 0 = assigned.getD j 0 := by
        intro j hj
        rw [hsfx, List.append_assoc]
        exact List.getD_append _ _ _ _ (by omega)
      have hcolti : colors.getD ti 0 = c := by
        rw [hsfx, List.append_assoc, List.getD_append_right _ _ _ _ (by omega)]
        rw [hlen]
        simp
      refine ⟨hclen, ⟨c :: suffix, by rw [hsfx]; simp⟩, ?_⟩
      intro i h1 h2
      rcases Nat.eq_or_lt_of_le h1 with rfl | hlt
      · refine ⟨by rw [hcolti]; exact hck, ?_, ?_⟩
        · intro j hj hshare heq
          apply hcmem
          rw [hgetD] at hshare
          rw [mem_usedColors]
          refine ⟨j, hj, by omega, hshare, ?_⟩
          rw [← hcolorsD j hj, heq, hcolti]
        · intro c' hc'
          rw [hcolti] at hc'
          have := hcleast c' hc'
          rw [Bool.not_eq_eq_eq_not, Bool.not_false] at this
          have hmem : c' ∈ usedColors input p ti assigned := by
            have helemc' := @List.elem_iff _ _ _ c' (usedColors input p ti assigned)
            rw [← helemc']
            rw [show (usedColors input p ti assigned).contains c' =
              (usedColors input p ti assigned).elem c' from rfl] at this
            exact this
          rw [mem_usedColors] at hmem
          obtain ⟨j, hj1, hj2, hshare, hassign⟩ := hmem
          refine ⟨j, hj1, by rw [hgetD]; exact hshare, ?_⟩
          rw [hcolorsD j hj1, hassign]
      · exact hgreedy i (by omega) h2

theorem ringNew_ok {Pt : Type} [DecidableEq Pt] {pts poly : List Pt}
    (h : ringNew pts = Except.ok poly) :
    poly = pts ∧ pts.head? = pts.getLast? ∧ 3 ≤ pts.toFinset.card := by
  unfold ringNew at h
  by_cases hc : (pts.head? = pts.getLast? ∧ 3 ≤ pts.toFinset.card)
  · rw [if_pos hc] at h
    exact ⟨(Except.ok.inj h).symm, hc⟩
  · rw [if_neg hc] at h
    exact absurd h (by simp)

theorem from_perimeter_ok {Pt RingT : Type} [DecidableEq Pt] {m : GeomMap Pt RingT}
    {perimeter : Perimeter} {b : Block Pt}
    (h : from_perimeter m perimeter = some (Except.ok b)) :
    b.polygon.head? = b.polygon.getLast? ∧ 3 ≤ b.polygon.toFinset.card := by
  unfold from_perimeter at h
  simp only [Option.bind_eq_bind, Option.bind_eq_some] at h
  obtain ⟨res, hres, h⟩ := h
  cases res with
  | error e => simp at h
  | ok v =>
    obtain ⟨pts, fi⟩ := v
    cases fi with
    | none => simp at h
    | some fiv =>
      simp only [Option.bind_eq_some] at h
      obtain ⟨pts2, hpts2, h⟩ := h
      cases hp0 : pts2.head? with
      | none => rw [hp0] at h; simp at h
      | some p0 =>
        simp only [hp0] at h
        cases hrn : ringNew (dedupConsec (pts2 ++ [p0])) with
        | error e => simp only [hrn] at h; simp at h
        | ok poly =>
          simp only [hrn] at h
          simp at h
          obtain ⟨hpoly, _⟩ := ringNew_ok hrn
          rw [← h]
          simp only
          rw [hpoly]
          exact (ringNew_ok hrn).2

/-- The seam-rotation step of `collapse_deadends` extracted: the least
rotation clearing the seam is used, and the scan runs on the rotated list. -/
theorem collapse_rotation {p q : Perimeter} (h : collapse_deadends p = some q) :
    ∃ k, k < (logicalRoads p).length ∧
      seamCond ((logicalRoads p).rotate k) = false ∧
      (∀ j, j < k → seamCond ((logicalRoads p).rotate j) = true) ∧
      logicalRoads q =
        (((logicalRoads p).rotate k).foldl collapseStep ([], p.interior)).1 ∧
      q.interior =
        (((logicalRoads p).rotate k).foldl collapseStep ([], p.interior)).2 := by
  unfold collapse_deadends at h
  simp only [Option.bind_eq_bind, Option.bind_eq_some, Option.pure_def,
    Option.some.injEq] at h
  obtain ⟨l0, h0, l1, h1, r, hr, hq⟩ := h
  obtain ⟨hdrop, hne, hhl⟩ := undoInvariant_eq_some h0
  obtain ⟨k, hk, hkrot, hkcond, hkleast⟩ := rotateWhile_eq_some h1
  have hl0 : l0 = logicalRoads p := hdrop
  subst hl0
  subst hkrot
  refine ⟨k, hk, hkcond, hkleast, ?_, ?_⟩
  · rw [← hq]
    exact logical_restored hr
  · rw [← hq]

/-- Closure of every entry survives one merge attempt round, with no
disjointness or multiplicity hypotheses: both `tryToMerge` outcomes return
closed perimeters (the emptied `other` of a successful merge excepted). -/
theorem tryMergeInto_closed :
    ∀ (results : List Perimeter) (p : Perimeter) {results1 : List Perimeter}
      {r : Option Perimeter},
    tryMergeInto results p = some (results1, r) →
    (∀ q ∈ results, ClosedLoop q) → ClosedLoop p →
    (∀ q ∈ results1, ClosedLoop q) ∧ (∀ p1, r = some p1 → ClosedLoop p1) := by
  intro results
  induction results with
  | nil =>
    intro p results1 r h hres hp
    unfold tryMergeInto at h
    simp only [Option.some.injEq, Prod.mk.injEq] at h
    obtain ⟨h1, h2⟩ := h
    subst h1
    subst h2
    refine ⟨by simp, ?_⟩
    intro p1 hp1
    cases Option.some.inj hp1
    exact hp
  | cons o os ih =>
    intro p results1 r h hres hp
    unfold tryMergeInto at h
    cases htm : tryToMerge o p with
    | none => rw [htm] at h; simp at h
    | some v =>
      obtain ⟨s, o1, p1⟩ := v
      cases s with
      | true =>
        simp only [htm] at h
        simp only [Option.some.injEq, Prod.mk.injEq] at h
        obtain ⟨h1, h2⟩ := h
        subst h1
        subst h2
        obtain ⟨hcm, _, _, _, _⟩ := tryToMerge_true_facts htm
        refine ⟨?_, by intro p2 hp2; simp at hp2⟩
        intro q hq
        rcases List.mem_cons.mp hq with rfl | hq
        · exact hcm
        · exact hres q (by simp [hq])
      | false =>
        simp only [htm] at h
        cases hrec : tryMergeInto os p1 with
        | none => rw [hrec] at h; simp at h
        | some w =>
          obtain ⟨os1, r1⟩ := w
          simp only [hrec] at h
          simp only [Option.some.injEq, Prod.mk.injEq] at h
          obtain ⟨h1, h2⟩ := h
          subst h1
          subst h2
          obtain ⟨hc1, hc2, _⟩ := tryToMerge_false_facts htm
          obtain ⟨ha, hb⟩ := ih p1 hrec (fun q hq => hres q (by simp [hq])) hc2
          refine ⟨?_, hb⟩
          intro q hq
          rcases List.mem_cons.mp hq with rfl | hq
          · exact hc1
          · exact ha q hq

/-- One full pass of `merge_all` keeps every perimeter closed,
unconditionally. -/
theorem mergePassGo_closed {sw : Bool} :
    ∀ (input results : List Perimeter) (debug : Bool) {out : List Perimeter},
    mergePassGo sw input results debug = some out →
    (∀ q ∈ results, ClosedLoop q) → (∀ q ∈ input, ClosedLoop q) →
    ∀ q ∈ out, ClosedLoop q := by
  intro input
  induction input with
  | nil =>
    intro results debug out h hres hin
    unfold mergePassGo at h
    simp only [Option.some.injEq] at h
    subst h
    exact hres
  | cons p rest ih =>
    intro results debug out h hres hin
    have hpc : ClosedLoop p := hin p (by simp)
    have hrest : ∀ q ∈ rest, ClosedLoop q := fun q hq => hin q (by simp [hq])
    unfold mergePassGo at h
    cases debug with
    | true =>
      rw [if_pos rfl] at h
      refine ih (results ++ [p]) true h ?_ hrest
      intro q hq
      rcases List.mem_append.mp hq with hq | hq
      · exact hres q hq
      · simp at hq; subst hq; exact hpc
    | false =>
      rw [if_neg (by simp)] at h
      cases hti : tryMergeInto results p with
      | none => rw [hti] at h; simp at h
      | some w =>
        obtain ⟨results1, ropt⟩ := w
        obtain ⟨hr1, hr2⟩ := tryMergeInto_closed results p hti hres hpc
        simp only [hti] at h
        cases ropt with
        | none => exact ih results1 sw h hr1 hrest
        | some p1 =>
          refine ih (results1 ++ [p1]) false h ?_ hrest
          intro q hq
          rcases List.mem_append.mp hq with hq | hq
          · exact hr1 q hq
          · simp at hq
            rw [hq]
            exact hr2 p1 rfl

/-- The outer loop of `merge_all` keeps every perimeter closed,
unconditionally. -/
theorem mergeAllAux_closed {sw : Bool} :
    ∀ (fuel : Nat) (input : List Perimeter) {out : List Perimeter},
    mergeAllAux sw fuel input = some out →
    (∀ q ∈ input, ClosedLoop q) → ∀ q ∈ out, ClosedLoop q := by
  intro fuel
  induction fuel with
  | zero =>
    intro input out h hin
    unfold mergeAllAux at h
    simp at h
  | succ f ih =>
    intro input out h hin
    unfold mergeAllAux at h
    simp only [Option.bind_eq_bind, Option.bind_eq_some] at h
    obtain ⟨results, hres, h⟩ := h
    have hres' : mergePassGo sw input [] false = some results := hres
    have hresc : ∀ q ∈ results, ClosedLoop q :=
      mergePassGo_closed input [] false hres' (by simp) hin
    by_cases hcond : (1 < results.length ∧ results.length < input.length ∧
        sw = false)
    · rw [if_pos hcond] at h
      exact ih results h hresc
    · rw [if_neg hcond] at h
      simp only [Option.pure_def, Option.some.injEq] at h
      subst h
      exact hresc

/-- `collapse_deadends` closes whatever it returns, so the collapse loop
yields only closed perimeters — no hypotheses on the input at all. -/
theorem collapseAll_closed :
    ∀ (input : List Perimeter) {out : List Perimeter},
    collapseAll input = some out → ∀ q ∈ out, ClosedLoop q := by
  intro input
  induction input with
  | nil =>
    intro out h
    unfold collapseAll at h
    simp only [Option.some.injEq] at h
    subst h
    simp
  | cons p rest ih =>
    intro out h
    unfold collapseAll at h
    cases hc : collapse_deadends p with
    | none =>
      simp only [hc] at h
      exact Option.noConfusion h
    | some q =>
      cases hcs : collapseAll rest with
      | none =>
        simp only [hc, hcs] at h
        exact Option.noConfusion h
      | some qs =>
        simp only [hc, hcs, Option.some.injEq] at h
        subst h
        intro x hx
        rcases List.mem_cons.mp hx with rfl | hx
        · obtain ⟨m, hcq, _, _⟩ := collapse_main hc
          exact hcq
        · exact ih hcs x hx

/-- Every perimeter `merge_all` returns is closed, with no hypotheses on the
input list. -/
theorem merge_all_closed {sw : Bool} {input out : List Perimeter}
    (h : merge_all sw input = some out) : ∀ p ∈ out, ClosedLoop p := by
  unfold merge_all at h
  simp only [Option.bind_eq_bind, Option.bind_eq_some] at h
  obtain ⟨collapsed, hcol, h⟩ := h
  exact mergeAllAux_closed _ collapsed h (collapseAll_closed input hcol)

/-- **C1** (amended).  Closure (first = last) holds unconditionally for every
perimeter each of the five operations returns: `single_block` and
`find_all_single_blocks` outputs, every `collapse_deadends` return, both
perimeters a `try_to_merge` call hands back (the emptied `other` of a
successful merge excepted — the source clears its roads), and every
`merge_all` output.  Interior/boundary disjointness holds for `single_block`
and `find_all_single_blocks` outputs unconditionally, and is preserved by
`collapse_deadends`, `try_to_merge` and `merge_all` whenever each road
occurs at most twice over the boundaries involved and interiors are disjoint
from all boundaries on entry (the `GoodFamily` hypotheses) — without that
bound a collapsed dead-end road can survive in the boundary while also being
recorded interior (see the counterexample). -/
theorem C1_perimeter_invariants :
    (∀ (m : TraceMap) (s : RoadSideID) (i fuel : Nat) (p : Perimeter),
      single_block m s i fuel = some (Except.ok p) →
      ClosedLoop p ∧ InteriorDisjoint p) ∧
    (∀ (m : TraceMap) (lanes : List LaneInfo) (fuel : Nat) (out : List Perimeter),
      find_all_single_blocks m lanes fuel = some out →
      ∀ p ∈ out, ClosedLoop p ∧ InteriorDisjoint p) ∧
    (∀ p q : Perimeter, collapse_deadends p = some q → ClosedLoop q) ∧
    (∀ (a b a' b' : Perimeter) (s : Bool), tryToMerge a b = some (s, a', b') →
      ClosedLoop a' ∧ (s = false → ClosedLoop b')) ∧
    (∀ (sw : Bool) (input out : List Perimeter), merge_all sw input = some out →
      ∀ p ∈ out, ClosedLoop p) ∧
    (∀ p q : Perimeter, InteriorDisjoint p → (∀ r, countRoad p r ≤ 2) →
      collapse_deadends p = some q → InteriorDisjoint q) ∧
    (∀ (a b a' b' : Perimeter) (s : Bool), GoodFamily [a, b] →
      tryToMerge a b = some (s, a', b') →
      InteriorDisjoint a' ∧ (s = false → InteriorDisjoint b')) ∧
    (∀ (sw : Bool) (input out : List Perimeter), GoodFamily input →
      merge_all sw input = some out →
      ∀ p ∈ out, InteriorDisjoint p) := by
  refine ⟨?_, ?_, ?_, ?_, ?_, ?_, ?_, ?_⟩
  · intro m s i fuel p h
    obtain ⟨h1, h2, _, _, _⟩ := single_block_ok h
    exact ⟨h1, h2⟩
  · intro m lanes fuel out h
    exact findAllAux_good lanes ∅ [] h (by simp)
  · intro p q h
    obtain ⟨m, hcq, _, _⟩ := collapse_main h
    exact hcq
  · intro a b a' b' s h
    cases s with
    | true =>
      obtain ⟨hcm, _, _, _, _⟩ := tryToMerge_true_facts h
      exact ⟨hcm, fun hc => Bool.noConfusion hc⟩
    | false =>
      obtain ⟨hc1, hc2, _⟩ := tryToMerge_false_facts h
      exact ⟨hc1, fun _ => hc2⟩
  · intro sw input out h
    exact merge_all_closed h
  · intro p q hd hcnt h
    exact collapse_disjoint hd hcnt h
  · intro a b a' b' s hgf h
    have hamem : a ∈ [a, b] := by simp
    have hbmem : b ∈ [a, b] := by simp
    have hda : InteriorDisjoint a := hgf.2.1 a hamem a hamem
    have hdb : InteriorDisjoint b := hgf.2.1 b hbmem b hbmem
    have hab : a.interior ∩ boundaryRoads b = ∅ := hgf.2.1 a hamem b hbmem
    have hba : b.interior ∩ boundaryRoads a = ∅ := hgf.2.1 b hbmem a hamem
    have hcnt : ∀ r, countRoad a r + countRoad b r ≤ 2 := by
      intro r
      have := hgf.2.2 r
      simp at this
      omega
    cases s with
    | true =>
      refine ⟨tryToMerge_true_disjoint h hda hdb hab hba hcnt, ?_⟩
      intro hc
      exact Bool.noConfusion hc
    | false =>
      obtain ⟨hc1, hc2, hi1, hi2, _, _, hb1, hb2, _, _, _, _⟩ := tryToMerge_false_facts h
      refine ⟨?_, fun _ => ?_⟩
      · unfold InteriorDisjoint at hda ⊢
        rw [hi1, hb1]
        exact hda
      · unfold InteriorDisjoint at hdb ⊢
        rw [hi2, hb2]
        exact hdb
  · intro sw input out hgf h p hp
    have hout := merge_all_GF h hgf
    exact hout.2.1 p hp p hp

/-- **C1** counterexample: a closed all-boundary perimeter that references
road 0 three times.  `collapse_deadends` removes one back-and-forth pair of
road 0, records it interior, but a third boundary occurrence of road 0
survives — the result's interior set meets its boundary set. -/
theorem C1_counterexample :
    ClosedLoop cexCollapse ∧ InteriorDisjoint cexCollapse ∧
    collapse_deadends cexCollapse =
      some ⟨[⟨1, .Left⟩, ⟨0, .Left⟩, ⟨1, .Left⟩], {0}⟩ ∧
    ¬ InteriorDisjoint ⟨[⟨1, .Left⟩, ⟨0, .Left⟩, ⟨1, .Left⟩], {0}⟩ := by
  refine ⟨by decide, by decide, by decide, by decide⟩

theorem C1_witness :
    GoodFamily [exA, exB] ∧ merge_all false [exA, exB] = some [exMerged] ∧
    (ClosedLoop exMerged ∧ InteriorDisjoint exMerged) := by
  refine ⟨by decide, by decide, ?_, ?_⟩
  · exact C1_perimeter_invariants.2.2.2.2.1 false [exA, exB] [exMerged]
      (by decide) exMerged (by simp)
  · exact C1_perimeter_invariants.2.2.2.2.2.2.2 false [exA, exB] [exMerged]
      (by decide) (by decide) exMerged (by simp)

/-- **C2** (amended).  Whenever `merge_all` returns, the *set* of roads over
all output loops' (boundary ∪ interior) equals that of the input loops, and
every input loop is accounted for: all its roads end up inside a single
output loop.  (The *multiset* version of the claim fails: a successful merge
collapses the two copies of a shared road into one — see the
counterexample.) -/
theorem C2_road_conservation :
    ∀ (sw : Bool) (input out : List Perimeter), merge_all sw input = some out →
      unionRoads out = unionRoads input ∧
      ∀ p ∈ input, ∃ q ∈ out, roadsOf p ⊆ roadsOf q := by
  intro sw input out h
  obtain ⟨h1, h2, _⟩ := merge_all_spec h
  exact ⟨h1, h2⟩

/-- **C2** counterexample: two squares sharing road 5 merge into one loop;
road 5 is counted twice across the input loops' road sets but only once
across the output's, so the multiset across loops is not conserved. -/
theorem C2_counterexample :
    merge_all false [exA, exB] = some [exMerged] ∧
    ¬ roadsAcross [exMerged] = roadsAcross [exA, exB] := by
  refine ⟨by decide, by decide⟩

theorem C2_witness :
    unionRoads [exMerged] = unionRoads [exA, exB] ∧
    ∀ p ∈ [exA, exB], ∃ q ∈ [exMerged], roadsOf p ⊆ roadsOf q :=
  C2_road_conservation false [exA, exB] [exMerged] (by decide)

/-- **C3** (confirmed).  Two closed perimeters with disjoint boundary road
sets never merge: `try_to_merge` returns `false` and hands both back exactly
unchanged.  Moreover *any* `false` return leaves each perimeter's boundary
road-side multiset, interior set and closedness intact, the boundary being
at most cyclically rotated. -/
theorem C3_disjoint_merge_fails :
    (∀ a b : Perimeter, ClosedLoop a → ClosedLoop b →
      boundaryRoads a ∩ boundaryRoads b = ∅ →
      tryToMerge a b = some (false, a, b)) ∧
    (∀ a b a' b' : Perimeter, tryToMerge a b = some (false, a', b') →
      ClosedLoop a' ∧ ClosedLoop b' ∧
      a'.interior = a.interior ∧ b'.interior = b.interior ∧
      roadsMS (logicalRoads a') = roadsMS (logicalRoads a) ∧
      roadsMS (logicalRoads b') = roadsMS (logicalRoads b) ∧
      (∃ k, logicalRoads a' = (logicalRoads a).rotate k) ∧
      (∃ k, logicalRoads b' = (logicalRoads b).rotate k)) := by
  constructor
  · exact fun a b ha hb hdisj => tryToMerge_empty_common ha hb hdisj
  · intro a b a' b' h
    obtain ⟨hc1, hc2, hi1, hi2, hm1, hm2, _, _, _, _, _, _⟩ := tryToMerge_false_facts h
    obtain ⟨_, _, hfalse, _⟩ := tryToMerge_spec h
    obtain ⟨_, _, _, _, hrot1, hrot2⟩ := hfalse rfl
    exact ⟨hc1, hc2, hi1, hi2, hm1, hm2, hrot1, hrot2⟩

theorem C3_witness :
    tryToMerge exDisjA exDisjB = some (false, exDisjA, exDisjB) :=
  C3_disjoint_merge_fails.1 exDisjA exDisjB (by decide) (by decide) (by decide)

/-- **C4** (amended).  The outer loop of `merge_all` needs at most
`input.length + 1` passes: with at least that much fuel the result no longer
depends on the fuel, because a further pass is taken only when the previous
pass strictly reduced the loop count.  (Unconditional termination fails: the
inner seam-rotation loop of `collapse_deadends` — which `merge_all` invokes —
never exits on a closed perimeter all of whose entries reference one road,
see the counterexample.) -/
theorem C4_pass_bound :
    ∀ (sw : Bool) (input : List Perimeter) (fuel : Nat),
      input.length + 1 ≤ fuel →
      mergeAllAux sw fuel input = mergeAllAux sw (input.length + 1) input :=
  fun sw input fuel h => mergeAllAux_fuel_stable fuel sw input h

/-- **C4** counterexample: the perimeter traced around one isolated road is
closed, yet `merge_all` on it diverges — the seam rotation
`while roads[0].road == roads.last().road` cycles forever (every rotation
satisfies the condition), modelled as `none`. -/
theorem C4_counterexample :
    ClosedLoop cexRotate ∧
    (∀ k, seamCond ((logicalRoads cexRotate).rotate k) = true) ∧
    collapse_deadends cexRotate = none ∧
    merge_all false [cexRotate] = none := by
  refine ⟨by decide, ?_, by decide, by decide⟩
  intro k
  have h2 : (logicalRoads cexRotate).length = 2 := by decide
  have := List.rotate_mod (logicalRoads cexRotate) k
  rw [h2] at this
  rw [← this]
  have : k % 2 = 0 ∨ k % 2 = 1 := by omega
  rcases this with h | h <;> rw [h] <;> decide

theorem C4_witness :
    mergeAllAux false 10 [exDisjA, exDisjB] = mergeAllAux false 3 [exDisjA, exDisjB] :=
  C4_pass_bound false [exDisjA, exDisjB] 10 (by decide)

/-- **C5** (amended).  Whenever `collapse_deadends` returns (the claim's
unconditional form fails: it diverges on an all-one-road loop, see the
counterexample), it first rotates the sequence by the least rotation
clearing the seam (so no rotation happens when the first and last distinct
entries already reference different roads), then the single scan removes
adjacent same-road pairs: the boundary multiset shrinks by two copies of
each removed road, each removed road is inserted into the interior set, and
the result is a closed perimeter. -/
theorem C5_collapse_spec :
    ∀ p q : Perimeter, collapse_deadends p = some q →
      ClosedLoop q ∧
      (∃ m : Multiset Nat,
        roadsMS (logicalRoads p) = roadsMS (logicalRoads q) + 2 • m ∧
        q.interior = p.interior ∪ m.toFinset) ∧
      (∃ k, k < (logicalRoads p).length ∧
        seamCond ((logicalRoads p).rotate k) = false ∧
        (∀ j, j < k → seamCond ((logicalRoads p).rotate j) = true) ∧
        logicalRoads q =
          (((logicalRoads p).rotate k).foldl collapseStep ([], p.interior)).1 ∧
        q.interior =
          (((logicalRoads p).rotate k).foldl collapseStep ([], p.interior)).2) := by
  intro p q h
  obtain ⟨m, hcq, hms, hint⟩ := collapse_main h
  exact ⟨hcq, ⟨m, hms, hint⟩, collapse_rotation h⟩

/-- **C5** counterexample: `cexRotate` is closed, but `collapse_deadends`
never returns on it (the seam rotation cycles forever), contradicting the
claim's "returns a closed perimeter" for every closed perimeter. -/
theorem C5_counterexample :
    ClosedLoop cexRotate ∧ collapse_deadends cexRotate = none := by
  refine ⟨by decide, by decide⟩

theorem C5_witness :
    collapse_deadends ⟨[⟨0, .Left⟩, ⟨1, .Left⟩, ⟨1, .Right⟩, ⟨2, .Left⟩, ⟨0, .Left⟩], ∅⟩ =
      some ⟨[⟨0, .Left⟩, ⟨2, .Left⟩, ⟨0, .Left⟩], {1}⟩ ∧
    ClosedLoop ⟨[⟨0, .Left⟩, ⟨2, .Left⟩, ⟨0, .Left⟩], {1}⟩ := by
  refine ⟨by decide, ?_⟩
  exact (C5_collapse_spec ⟨[⟨0, .Left⟩, ⟨1, .Left⟩, ⟨1, .Right⟩, ⟨2, .Left⟩, ⟨0, .Left⟩], ∅⟩
    ⟨[⟨0, .Left⟩, ⟨2, .Left⟩, ⟨0, .Left⟩], {1}⟩ (by decide)).1

theorem SharesRoad_symm {p q : Perimeter} (h : SharesRoad p q) : SharesRoad q p := by
  obtain ⟨r, h1, h2⟩ := h
  exact ⟨r, h2, h1⟩

/-- **C7** (confirmed).  Whenever the colorer returns, it assigns one color
per input loop; each color is the lowest index in `[0, numColors)` not used
by a lower-indexed loop sharing a road (`GreedyAt`); and no two loops
sharing a road receive the same color. -/
theorem C7_coloring_valid :
    ∀ (input : List Perimeter) (k : Nat) (colors : List Nat),
      calculate_coloring input k = some colors →
      colors.length = input.length ∧
      (∀ i, i < input.length → GreedyAt input k colors i) ∧
      (∀ i j, i < input.length → j < input.length → i ≠ j →
        SharesRoad (input.getD i default) (input.getD j default) →
        colors.getD i 0 ≠ colors.getD j 0) := by
  intro input k colors h
  unfold calculate_coloring at h
  obtain ⟨hlen, _, hgreedy⟩ :=
    coloringGo_spec input k input 0 [] h (List.drop_zero input).symm rfl (by omega)
  refine ⟨hlen, fun i hi => hgreedy i (by omega) hi, ?_⟩
  intro i j hi hj hne hshare
  rcases Nat.lt_or_ge i j with hlt | hge
  · intro heq
    exact (hgreedy j (by omega) hj).2.1 i hlt (SharesRoad_symm hshare) heq
  · have hlt : j < i := by omega
    intro heq
    exact (hgreedy i (by omega) hi).2.1 j hlt hshare heq.symm

theorem C7_witness :
    calculate_coloring [exShare1, exShare2] 2 = some [0, 1] ∧
    ([0, 1] : List Nat).length = ([exShare1, exShare2] : List Perimeter).length ∧
    (0 : Nat) ≠ 1 := by
  refine ⟨by decide, ?_, by decide⟩
  exact (C7_coloring_valid [exShare1, exShare2] 2 [0, 1] (by decide)).1

/-- **C8** (confirmed).  The only error `single_block` can return is the
boundary bail with its fixed message: on a map with no border intersections
every returning trace succeeds, and a successful trace's road sequence is
explicitly closed — it starts and ends with the starting road side. -/
theorem C8_single_block_boundary :
    ∀ (m : TraceMap) (s : RoadSideID) (i fuel : Nat),
      (∀ e, single_block m s i fuel = some (Except.error e) →
        e = "hit the map boundary") ∧
      ((∀ j, m.isBorder j = false) →
        ∀ res, single_block m s i fuel = some res → ∃ p, res = Except.ok p) ∧
      (∀ p, single_block m s i fuel = some (Except.ok p) →
        p.roads.head? = some s ∧ p.roads.getLast? = some s ∧ p.interior = ∅) := by
  intro m s i fuel
  refine ⟨?_, ?_, ?_⟩
  · intro e h
    exact single_block_error h
  · intro hnb res h
    exact single_block_no_border hnb h
  · intro p h
    obtain ⟨_, _, h3, h4, h5⟩ := single_block_ok h
    exact ⟨h3, h4, h5⟩

theorem C8_witness :
    single_block exMapBorder ⟨0, .Left⟩ 0 5 =
      some (Except.error "hit the map boundary") ∧
    single_block exMapDead ⟨0, .Left⟩ 1 3 =
      some (Except.ok ⟨[⟨0, .Left⟩, ⟨0, .Right⟩, ⟨0, .Left⟩], ∅⟩) ∧
    ([⟨0, .Left⟩, ⟨0, .Right⟩, ⟨0, .Left⟩] : List RoadSideID).head? = some ⟨0, .Left⟩ ∧
    ([⟨0, .Left⟩, ⟨0, .Right⟩, ⟨0, .Left⟩] : List RoadSideID).getLast? = some ⟨0, .Left⟩ := by
  refine ⟨by decide, by decide, ?_, ?_⟩
  · exact ((C8_single_block_boundary exMapDead ⟨0, .Left⟩ 1 3).2.2
      ⟨[⟨0, .Left⟩, ⟨0, .Right⟩, ⟨0, .Left⟩], ∅⟩ (by decide)).1
  · exact ((C8_single_block_boundary exMapDead ⟨0, .Left⟩ 1 3).2.2
      ⟨[⟨0, .Left⟩, ⟨0, .Right⟩, ⟨0, .Left⟩], ∅⟩ (by decide)).2.1

/-- **C9** (confirmed, with `geom::Ring::new` modelled from the spec since
the `geom` crate is not part of the sources).  Whenever `Block` construction
succeeds, the block's polygon point sequence is closed — first point equals
last point — and holds at least 3 distinct points. -/
theorem C9_polygon_closed :
    ∀ {Pt RingT : Type} [DecidableEq Pt] (m : GeomMap Pt RingT)
      (per : Perimeter) (b : Block Pt),
      from_perimeter m per = some (Except.ok b) →
      b.polygon.head? = b.polygon.getLast? ∧ 3 ≤ b.polygon.toFinset.card :=
  fun m per b h => from_perimeter_ok h

theorem C9_witness :
    from_perimeter c9Map c9Perim =
      some (Except.ok ⟨c9Perim, [0, 1, 2, 3, 0]⟩) ∧
    ([0, 1, 2, 3, 0] : List Nat).head? = ([0, 1, 2, 3, 0] : List Nat).getLast? ∧
    3 ≤ ([0, 1, 2, 3, 0] : List Nat).toFinset.card := by
  refine ⟨by decide, ?_⟩
  exact C9_polygon_closed c9Map c9Perim ⟨c9Perim, [0, 1, 2, 3, 0]⟩ (by decide)

/-- **C10** (confirmed).  With an empty palette the colorer fails on any
non-empty input (the very first loop finds no available color), and on the
empty input it succeeds with the empty assignment for every palette size,
zero included. -/
theorem C10_coloring_edges :
    (∀ input : List Perimeter, input ≠ [] → calculate_coloring input 0 = none) ∧
    (∀ k : Nat, calculate_coloring [] k = some []) := by
  constructor
  · intro input hne
    cases input with
    | nil => exact absurd rfl hne
    | cons p rest =>
      unfold calculate_coloring coloringGo
      simp
  · intro k
    rfl

theorem C10_witness :
    calculate_coloring [exShare1] 0 = none ∧
    calculate_coloring [] 5 = some [] :=
  ⟨C10_coloring_edges.1 [exShare1] (by decide), C10_coloring_edges.2 5⟩

theorem mem_floodExtend {input : List Perimeter} {pred : Nat → Bool}
    {current j : Nat} :
    j ∈ floodExtend input pred current ↔
    ∃ r, pred r = true ∧ r ∈ boundaryRoads (input.getD current default) ∧
      j < input.length ∧ r ∈ boundaryRoads (input.getD j default) := by
  unfold floodExtend
  simp only [List.mem_bind]
  constructor
  · rintro ⟨id, hid, hj⟩
    by_cases hp : pred id.road = true
    · rw [if_pos hp] at hj
      rw [mem_roadToPerimeters] at hj
      exact ⟨id.road, hp, mem_boundaryRoads.mpr ⟨id, hid, rfl⟩, hj.1, hj.2⟩
    · rw [if_neg hp] at hj
      simp at hj
  · rintro ⟨r, hp, hrc, hjn, hrj⟩
    obtain ⟨id, hid, rfl⟩ := mem_boundaryRoads.mp hrc
    exact ⟨id, hid, by rw [if_pos hp, mem_roadToPerimeters]; exact ⟨hjn, hrj⟩⟩

theorem adj_iff_floodExtend {input : List Perimeter} {pred : Nat → Bool} {i j : Nat} :
    PredAdjSpec input pred i j ↔ i < input.length ∧ j ∈ floodExtend input pred i := by
  unfold PredAdjSpec
  rw [mem_floodExtend]
  constructor
  · rintro ⟨h1, h2, r, hr⟩
    exact ⟨h1, r, hr.1, hr.2.1, h2, hr.2.2⟩
  · rintro ⟨h1, r, hp, hrc, hjn, hrj⟩
    exact ⟨h1, hjn, r, hp, hrc, hrj⟩

theorem PredAdjSpec_symm {input : List Perimeter} {pred : Nat → Bool} {i j : Nat}
    (h : PredAdjSpec input pred i j) : PredAdjSpec input pred j i := by
  obtain ⟨h1, h2, r, hr⟩ := h
  exact ⟨h2, h1, r, hr.1, hr.2.2, hr.2.1⟩

theorem reach_symm {input : List Perimeter} {pred : Nat → Bool} {i j : Nat}
    (h : Relation.ReflTransGen (PredAdjSpec input pred) i j) :
    Relation.ReflTransGen (PredAdjSpec input pred) j i := by
  induction h with
  | refl => exact Relation.ReflTransGen.refl
  | tail _ hstep ih =>
    exact Relation.ReflTransGen.trans
      (Relation.ReflTransGen.single (PredAdjSpec_symm hstep)) ih

theorem closed_under_reach {input : List Perimeter} {pred : Nat → Bool}
    {S : Finset Nat} (hS : ∀ x ∈ S, ∀ j, PredAdjSpec input pred x j → j ∈ S)
    {x y : Nat} (hx : x ∈ S)
    (h : Relation.ReflTransGen (PredAdjSpec input pred) x y) : y ∈ S := by
  induction h with
  | refl => exact hx
  | tail _ hstep ih => exact hS _ ih _ hstep

theorem queue_decompose {queue : List Nat} {current : Nat}
    (h : queue.getLast? = some current) :
    queue = queue.dropLast ++ [current] := by
  have hne : queue ≠ [] := by rintro rfl; simp at h
  conv_lhs => rw [← List.dropLast_append_getLast hne]
  rw [List.getLast?_eq_getLast _ hne] at h
  rw [Option.some.inj h]

/-- Everything the floodfill visits satisfies any predicate that holds on the
seeds and is preserved along filtered adjacency. -/
theorem floodAux_subset {input : List Perimeter} {pred : Nat → Bool}
    (P : Nat → Prop)
    (hP : ∀ i j, P i → j ∈ floodExtend input pred i → P j) :
    ∀ (visited : Finset Nat) (queue : List Nat) {out : Finset Nat},
    floodAux input pred visited queue = some out →
    (∀ x ∈ visited, P x) → (∀ x ∈ queue, P x) → ∀ x ∈ out, P x := by
  intro visited queue
  induction visited, queue using floodAux.induct input pred with
  | case1 visited queue hlast =>
    intro out h hv hq
    unfold floodAux at h
    rw [hlast] at h
    simp at h
    subst h
    exact hv
  | case2 visited queue current hlast hmem ih =>
    intro out h hv hq
    unfold floodAux at h
    rw [hlast] at h
    simp only [if_pos hmem] at h
    refine ih h hv ?_
    intro x hx
    exact hq x (by rw [queue_decompose hlast]; simp [hx])
  | case3 visited queue current hlast hmem hlt ih =>
    intro out h hv hq
    unfold floodAux at h
    rw [hlast] at h
    simp only [if_neg hmem] at h
    rw [dif_pos hlt] at h
    have hcur : P current := hq current (by rw [queue_decompose hlast]; simp)
    refine ih h ?_ ?_
    · intro x hx
      rcases Finset.mem_insert.mp hx with rfl | hx
      · exact hcur
      · exact hv x hx
    · intro x hx
      rcases List.mem_append.mp hx with hx | hx
      · exact hq x (by rw [queue_decompose hlast]; simp [hx])
      · exact hP current x hcur hx
  | case4 visited queue current hlast hmem hlt =>
    intro out h hv hq
    unfold floodAux at h
    rw [hlast] at h
    simp only [if_neg hmem] at h
    rw [dif_neg hlt] at h
    simp at h

/-- The floodfill output contains everything already visited and everything
queued. -/
theorem floodAux_mono {input : List Perimeter} {pred : Nat → Bool} :
    ∀ (visited : Finset Nat) (queue : List Nat) {out : Finset Nat},
    floodAux input pred visited queue = some out →
    (∀ x ∈ visited, x ∈ out) ∧ (∀ x ∈ queue, x ∈ out) := by
  intro visited queue
  induction visited, queue using floodAux.induct input pred with
  | case1 visited queue hlast =>
    intro out h
    unfold floodAux at h
    rw [hlast] at h
    simp at h
    subst h
    have hq : queue = [] := by
      cases queue with
      | nil => rfl
      | cons a l =>
        rw [List.getLast?_eq_getLast _ (by simp)] at hlast
        simp at hlast
    subst hq
    exact ⟨fun x hx => hx, by simp⟩
  | case2 visited queue current hlast hmem ih =>
    intro out h
    unfold floodAux at h
    rw [hlast] at h
    simp only [if_pos hmem] at h
    obtain ⟨hv, hq⟩ := ih h
    refine ⟨hv, ?_⟩
    intro x hx
    rw [queue_decompose hlast] at hx
    rcases List.mem_append.mp hx with hx | hx
    · exact hq x hx
    · simp at hx; subst hx; exact hv x hmem
  | case3 visited queue current hlast hmem hlt ih =>
    intro out h
    unfold floodAux at h
    rw [hlast] at h
    simp only [if_neg hmem] at h
    rw [dif_pos hlt] at h
    obtain ⟨hv, hq⟩ := ih h
    have hcur : current ∈ out := hv current (Finset.mem_insert_self _ _)
    refine ⟨fun x hx => hv x (Finset.mem_insert_of_mem hx), ?_⟩
    intro x hx
    rw [queue_decompose hlast] at hx
    rcases List.mem_append.mp hx with hx | hx
    · exact hq x (List.mem_append_left _ hx)
    · simp at hx; subst hx; exact hcur
  | case4 visited queue current hlast hmem hlt =>
    intro out h
    unfold floodAux at h
    rw [hlast] at h
    simp only [if_neg hmem] at h
    rw [dif_neg hlt] at h
    simp at h

/-- If every already-visited index has all its filtered neighbours visited or
queued, the floodfill output is closed under filtered adjacency. -/
theorem floodAux_closed {input : List Perimeter} {pred : Nat → Bool} :
    ∀ (visited : Finset Nat) (queue : List Nat) {out : Finset Nat},
    floodAux input pred visited queue = some out →
    (∀ x ∈ visited, ∀ j ∈ floodExtend input pred x, j ∈ visited ∨ j ∈ queue) →
    ∀ x ∈ out, ∀ j ∈ floodExtend input pred x, j ∈ out := by
  intro visited queue
  induction visited, queue using floodAux.induct input pred with
  | case1 visited queue hlast =>
    intro out h hinv
    unfold floodAux at h
    rw [hlast] at h
    simp at h
    subst h
    have hq : queue = [] := by
      cases queue with
      | nil => rfl
      | cons a l =>
        rw [List.getLast?_eq_getLast _ (by simp)] at hlast
        simp at hlast
    intro x hx j hj
    rcases hinv x hx j hj with hji | hji
    · exact hji
    · rw [hq] at hji; simp at hji
  | case2 visited queue current hlast hmem ih =>
    intro out h hinv
    unfold floodAux at h
    rw [hlast] at h
    simp only [if_pos hmem] at h
    refine ih h ?_
    intro x hx j hj
    rcases hinv x hx j hj with hji | hji
    · exact Or.inl hji
    · rw [queue_decompose hlast] at hji
      rcases List.mem_append.mp hji with hji | hji
      · exact Or.inr hji
      · simp at hji; subst hji; exact Or.inl hmem
  | case3 visited queue current hlast hmem hlt ih =>
    intro out h hinv
    unfold floodAux at h
    rw [hlast] at h
    simp only [if_neg hmem] at h
    rw [dif_pos hlt] at h
    refine ih h ?_
    intro x hx j hj
    rcases Finset.mem_insert.mp hx with rfl | hx
    · exact Or.inr (List.mem_append_right _ hj)
    · rcases hinv x hx j hj with hji | hji
      · exact Or.inl (Finset.mem_insert_of_mem hji)
      · rw [queue_decompose hlast] at hji
        rcases List.mem_append.mp hji with hji | hji
        · exact Or.inr (List.mem_append_left _ hji)
        · simp at hji; subst hji; exact Or.inl (Finset.mem_insert_self _ _)
  | case4 visited queue current hlast hmem hlt =>
    intro out h
    unfold floodAux at h
    rw [hlast] at h
    simp only [if_neg hmem] at h
    rw [dif_neg hlt] at h
    simp at h

/-- The floodfill returns whenever every queued index is in range (the indices
it appends itself always are). -/
theorem floodAux_total {input : List Perimeter} {pred : Nat → Bool} :
    ∀ (visited : Finset Nat) (queue : List Nat),
    (∀ x ∈ queue, x < input.length) →
    ∃ out, floodAux input pred visited queue = some out := by
  intro visited queue
  induction visited, queue using floodAux.induct input pred with
  | case1 visited queue hlast =>
    intro _
    refine ⟨visited, ?_⟩
    unfold floodAux
    rw [hlast]
  | case2 visited queue current hlast hmem ih =>
    intro hq
    obtain ⟨out, hout⟩ := ih (fun x hx =>
      hq x (by rw [queue_decompose hlast]; exact List.mem_append_left _ hx))
    refine ⟨out, ?_⟩
    unfold floodAux
    rw [hlast]
    simp only [if_pos hmem]
    exact hout
  | case3 visited queue current hlast hmem hlt ih =>
    intro hq
    have hall : ∀ x ∈ queue.dropLast ++ floodExtend input pred current,
        x < input.length := by
      intro x hx
      rcases List.mem_append.mp hx with hx | hx
      · exact hq x (by rw [queue_decompose hlast]; exact List.mem_append_left _ hx)
      · obtain ⟨r, _, _, hlt2, _⟩ := mem_floodExtend.mp hx
        exact hlt2
    obtain ⟨out, hout⟩ := ih hall
    refine ⟨out, ?_⟩
    unfold floodAux
    rw [hlast]
    simp only [if_neg hmem]
    rw [dif_pos hlt]
    exact hout
  | case4 visited queue current hlast hmem hlt =>
    intro hq
    exact absurd (hq current (by rw [queue_decompose hlast]; simp)) hlt

/-- Full description of one floodfill from a fresh in-range seed: it returns
exactly the connected component of the seed under filtered adjacency. -/
theorem flood_characterize {input : List Perimeter} {pred : Nat → Bool} {s : Nat}
    (hs : s < input.length) :
    ∃ out, floodAux input pred ∅ [s] = some out ∧
      s ∈ out ∧
      (∀ x ∈ out, x < input.length) ∧
      (∀ x ∈ out, Relation.ReflTransGen (PredAdjSpec input pred) s x) ∧
      (∀ x ∈ out, ∀ j, PredAdjSpec input pred x j → j ∈ out) ∧
      (∀ x, Relation.ReflTransGen (PredAdjSpec input pred) s x → x ∈ out) := by
  obtain ⟨out, hout⟩ := @floodAux_total input pred ∅ [s]
    (by intro x hx; simp at hx; subst hx; exact hs)
  have hseed : s ∈ out := (floodAux_mono _ _ hout).2 s (by simp)
  have hstep : ∀ i j,
      (Relation.ReflTransGen (PredAdjSpec input pred) s i ∧ i < input.length) →
      j ∈ floodExtend input pred i →
      Relation.ReflTransGen (PredAdjSpec input pred) s j ∧ j < input.length := by
    intro i j hi hj
    obtain ⟨r, _, _, hjlt, _⟩ := mem_floodExtend.mp hj
    exact ⟨hi.1.tail (adj_iff_floodExtend.mpr ⟨hi.2, hj⟩), hjlt⟩
  have hinit : ∀ x ∈ [s],
      Relation.ReflTransGen (PredAdjSpec input pred) s x ∧ x < input.length := by
    intro x hx
    simp at hx
    subst hx
    exact ⟨Relation.ReflTransGen.refl, hs⟩
  have hP := floodAux_subset
    (fun x => Relation.ReflTransGen (PredAdjSpec input pred) s x ∧ x < input.length)
    hstep ∅ [s] hout (by simp) hinit
  have hclosedFE := floodAux_closed _ _ hout (by simp)
  have hclosed : ∀ x ∈ out, ∀ j, PredAdjSpec input pred x j → j ∈ out := by
    intro x hx j hadj
    exact hclosedFE x hx j (adj_iff_floodExtend.mp hadj).2
  refine ⟨out, hout, hseed, fun x hx => (hP x hx).2, fun x hx => (hP x hx).1,
    hclosed, ?_⟩
  intro x hreach
  exact closed_under_reach hclosed hseed hreach

/-- Full description of the start loop of `partition_by_predicate`: given
in-range starts and an adjacency-closed `finished` set it always returns, and
the returned parts are nonempty, in-range, adjacency-closed, pairwise
connected, disjoint from `finished` and from each other, and cover every
start. -/
theorem partitionsLoop_spec {input : List Perimeter} {pred : Nat → Bool} :
    ∀ (starts : List Nat) (finished : Finset Nat),
    (∀ s ∈ starts, s < input.length) →
    (∀ x ∈ finished, ∀ j, PredAdjSpec input pred x j → j ∈ finished) →
    ∃ parts, partitionsLoop input pred starts finished = some parts ∧
      (∀ s ∈ parts, ∀ x ∈ s, x < input.length) ∧
      (∀ s ∈ parts, ∀ x ∈ s, ∀ j, PredAdjSpec input pred x j → j ∈ s) ∧
      (∀ s ∈ parts, ∀ x ∈ s, ∀ y ∈ s,
        Relation.ReflTransGen (PredAdjSpec input pred) x y) ∧
      (∀ s ∈ parts, s.Nonempty) ∧
      (∀ s ∈ parts, ∀ x ∈ s, x ∉ finished) ∧
      List.Pairwise (fun s t => ∀ x ∈ s, x ∉ t) parts ∧
      (∀ i ∈ starts, i ∈ finished ∨ ∃ s ∈ parts, i ∈ s) := by
  intro starts
  induction starts with
  | nil =>
    intro finished _ _
    exact ⟨[], rfl, by simp, by simp, by simp, by simp, by simp, by simp, by simp⟩
  | cons a rest ih =>
    intro finished hrange hfin
    by_cases ha : a ∈ finished
    · obtain ⟨parts, hp, h1, h2, h3, h4, h5, h6, h7⟩ :=
        ih finished (fun s hs => hrange s (by simp [hs])) hfin
      refine ⟨parts, ?_, h1, h2, h3, h4, h5, h6, ?_⟩
      · unfold partitionsLoop
        rw [if_pos ha]
        exact hp
      · intro i hi
        rcases List.mem_cons.mp hi with rfl | hi
        · exact Or.inl ha
        · exact h7 i hi
    · have halt : a < input.length := hrange a (by simp)
      obtain ⟨out, hout, hseed, houtrange, houtreach, houtclosed, houtcompl⟩ :=
        @flood_characterize input pred a halt
      have hfin' : ∀ x ∈ finished ∪ out, ∀ j, PredAdjSpec input pred x j →
          j ∈ finished ∪ out := by
        intro x hx j hadj
        rcases Finset.mem_union.mp hx with hx | hx
        · exact Finset.mem_union_left _ (hfin x hx j hadj)
        · exact Finset.mem_union_right _ (houtclosed x hx j hadj)
      obtain ⟨parts, hp, h1, h2, h3, h4, h5, h6, h7⟩ :=
        ih (finished ∪ out) (fun s hs => hrange s (by simp [hs])) hfin'
      have houtfin : ∀ x ∈ out, x ∉ finished := by
        intro x hx hxf
        exact ha (closed_under_reach hfin hxf (reach_symm (houtreach x hx)))
      refine ⟨out :: parts, ?_, ?_, ?_, ?_, ?_, ?_, ?_, ?_⟩
      · unfold partitionsLoop
        rw [if_neg ha]
        simp only [hout, hp]
      · intro s hs
        rcases List.mem_cons.mp hs with rfl | hs
        · exact houtrange
        · exact h1 s hs
      · intro s hs
        rcases List.mem_cons.mp hs with rfl | hs
        · exact houtclosed
        · exact h2 s hs
      · intro s hs
        rcases List.mem_cons.mp hs with rfl | hs
        · intro x hx y hy
          exact Relation.ReflTransGen.trans (reach_symm (houtreach x hx))
            (houtreach y hy)
        · exact h3 s hs
      · intro s hs
        rcases List.mem_cons.mp hs with rfl | hs
        · exact ⟨a, hseed⟩
        · exact h4 s hs
      · intro s hs
        rcases List.mem_cons.mp hs with rfl | hs
        · exact houtfin
        · intro x hx
          exact fun hxf =>
            h5 s hs x hx (Finset.mem_union_left _ hxf)
      · refine List.Pairwise.cons ?_ h6
        intro t ht x hx hxt
        exact h5 t ht x hxt (Finset.mem_union_right _ hx)
      · intro i hi
        rcases List.mem_cons.mp hi with rfl | hi
        · exact Or.inr ⟨out, by simp, hseed⟩
        · rcases h7 i hi with hif | ⟨s, hs, his⟩
          · rcases Finset.mem_union.mp hif with hif | hif
            · exact Or.inl hif
            · exact Or.inr ⟨out, by simp, hif⟩
          · exact Or.inr ⟨s, by simp [hs], his⟩

theorem availOf_length {input : List Perimeter} {taken : Finset Nat} :
    (availOf input taken).length = input.length := by
  simp [availOf]

theorem availOf_getD {input : List Perimeter} {taken : Finset Nat} {i : Nat}
    (hi : i < input.length) :
    (availOf input taken).getD i none =
      if i ∈ taken then none else some (input.getD i default) := by
  unfold availOf
  rw [List.getD_eq_getElem?_getD, List.getElem?_map, List.getElem?_range hi]
  simp

theorem availOf_set {input : List Perimeter} {taken : Finset Nat} {i : Nat}
    (hi : i < input.length) :
    (availOf input taken).set i none = availOf input (insert i taken) := by
  unfold availOf
  apply List.ext_getElem
  · simp
  · intro j hj1 hj2
    simp only [List.length_set, List.length_map, List.length_range] at hj1
    rw [List.getElem_set]
    by_cases hij : i = j
    · subst hij
      rw [if_pos rfl, List.getElem_map, List.getElem_range]
      simp
    · rw [if_neg hij]
      simp only [List.getElem_map, List.getElem_range]
      have hins : j ∈ insert i taken ↔ j ∈ taken := by
        simp [Finset.mem_insert]
        intro hji
        exact absurd hji.symm hij
      simp only [hins]

theorem availOf_empty {input : List Perimeter} :
    availOf input ∅ = input.map some := by
  unfold availOf
  apply List.ext_getElem
  · simp
  · intro j hj1 hj2
    simp only [List.length_map, List.length_range] at hj1
    rw [List.getElem_map, List.getElem_range, List.getElem_map]
    simp [List.getD_eq_getElem?_getD, List.getElem?_eq_getElem hj1]

/-- One `takeGroup` call over fresh, in-range, duplicate-free indices: it
extracts exactly those perimeters in order and marks the indices taken. -/
theorem takeGroup_spec {input : List Perimeter} :
    ∀ (idxs : List Nat) (taken : Finset Nat),
    idxs.Nodup →
    (∀ i ∈ idxs, i < input.length) →
    (∀ i ∈ idxs, i ∉ taken) →
    takeGroup (availOf input taken) idxs =
      some (idxs.map (fun i => input.getD i default),
        availOf input (taken ∪ idxs.toFinset)) := by
  intro idxs
  induction idxs with
  | nil =>
    intro taken _ _ _
    simp [takeGroup]
  | cons a rest ih =>
    intro taken hnd hrange hfresh
    have ha : a < input.length := hrange a (by simp)
    have haf : a ∉ taken := hfresh a (by simp)
    have hfresh' : ∀ i ∈ rest, i ∉ insert a taken := by
      intro i hi
      rw [Finset.mem_insert]
      push_neg
      constructor
      · intro hia
        subst hia
        exact absurd hi (List.Nodup.not_mem hnd)
      · exact hfresh i (by simp [hi])
    have h1 : (availOf input taken).getD a none = some (input.getD a default) := by
      rw [availOf_getD ha, if_neg haf]
    have h2 : takeGroup ((availOf input taken).set a none) rest =
        some (rest.map (fun i => input.getD i default),
          availOf input (insert a taken ∪ rest.toFinset)) := by
      rw [availOf_set ha]
      exact ih (insert a taken) (List.Nodup.of_cons hnd)
        (fun i hi => hrange i (by simp [hi])) hfresh'
    have hset : insert a taken ∪ rest.toFinset = taken ∪ (a :: rest).toFinset := by
      ext x
      simp [Finset.mem_union, Finset.mem_insert]
    unfold takeGroup
    rw [hset] at h2
    simp only [h1, h2, List.map_cons]

theorem mem_foldr_union {parts : List (Finset Nat)} {x : Nat} :
    x ∈ parts.foldr (· ∪ ·) ∅ ↔ ∃ s ∈ parts, x ∈ s := by
  induction parts with
  | nil => simp
  | cons s ss ih => simp [Finset.mem_union, ih]

/-- The take loop of `partition_by_predicate` over pairwise-disjoint fresh
parts: it extracts each part's perimeters in sorted index order and marks
every covered index taken. -/
theorem takeGroups_spec {input : List Perimeter} :
    ∀ (parts : List (Finset Nat)) (taken : Finset Nat),
    (∀ s ∈ parts, ∀ x ∈ s, x < input.length) →
    (∀ s ∈ parts, ∀ x ∈ s, x ∉ taken) →
    List.Pairwise (fun s t => ∀ x ∈ s, x ∉ t) parts →
    takeGroups (availOf input taken) parts =
      some (parts.map (sortedGroup input),
        availOf input (taken ∪ parts.foldr (· ∪ ·) ∅)) := by
  intro parts
  induction parts with
  | nil =>
    intro taken _ _ _
    simp only [takeGroups, List.map_nil, List.foldr_nil, Finset.union_empty]
  | cons s ss ih =>
    intro taken hrange hfresh hpw
    have hsort : takeGroup (availOf input taken) (s.sort (· ≤ ·)) =
        some (sortedGroup input s, availOf input (taken ∪ s)) := by
      have := @takeGroup_spec input (s.sort (· ≤ ·)) taken
        (Finset.sort_nodup _ s)
        (fun i hi => hrange s (by simp) i ((Finset.mem_sort _).mp hi))
        (fun i hi => hfresh s (by simp) i ((Finset.mem_sort _).mp hi))
      rw [Finset.sort_toFinset] at this
      exact this
    have hrec : takeGroups (availOf input (taken ∪ s)) ss =
        some (ss.map (sortedGroup input),
          availOf input ((taken ∪ s) ∪ ss.foldr (· ∪ ·) ∅)) := by
      refine ih (taken ∪ s) (fun t ht x hx => hrange t (by simp [ht]) x hx) ?_
        (List.Pairwise.of_cons hpw)
      intro t ht x hx
      rw [Finset.mem_union]
      push_neg
      exact ⟨hfresh t (by simp [ht]) x hx,
        fun hxs => (List.pairwise_cons.mp hpw).1 t ht x hxs hx⟩
    unfold takeGroups
    rw [Option.bind_eq_bind]
    rw [hsort]
    simp only [Option.some_bind]
    rw [hrec]
    simp only [Option.some_bind, List.map_cons, List.foldr_cons, Option.pure_def]
    rw [Finset.union_assoc]
    rfl

theorem availOf_all_none {input : List Perimeter} {taken : Finset Nat}
    (h : ∀ i, i < input.length → i ∈ taken) :
    (availOf input taken).all (fun o => o.isNone) = true := by
  rw [List.all_eq_true]
  intro o ho
  unfold availOf at ho
  rw [List.mem_map] at ho
  obtain ⟨i, hi, rfl⟩ := ho
  rw [List.mem_range] at hi
  rw [if_pos (h i hi)]
  rfl

theorem range_map_getD {input : List Perimeter} :
    (List.range input.length).map (fun i => input.getD i default) = input := by
  apply List.ext_getElem
  · simp
  · intro j hj1 hj2
    simp only [List.length_map, List.length_range] at hj1
    rw [List.getElem_map, List.getElem_range]
    exact getD_of_getElem? (List.getElem?_eq_getElem hj2)

theorem sortedGroup_coe {input : List Perimeter} {s : Finset Nat} :
    (↑(sortedGroup input s) : Multiset Perimeter) =
      Multiset.map (fun i => input.getD i default) s.val := by
  unfold sortedGroup
  rw [← Multiset.map_coe, Finset.sort_eq]

theorem parts_val_sum {f : Nat → Perimeter} :
    ∀ (parts : List (Finset Nat)),
    List.Pairwise (fun s t => ∀ x ∈ s, x ∉ t) parts →
    (parts.map (fun s => Multiset.map f s.val)).sum =
      Multiset.map f (parts.foldr (· ∪ ·) ∅).val := by
  intro parts
  induction parts with
  | nil => simp
  | cons s ss ih =>
    intro hpw
    have hdisj : Disjoint s (ss.foldr (· ∪ ·) ∅) := by
      rw [Finset.disjoint_left]
      intro x hx hxU
      obtain ⟨t, ht, hxt⟩ := mem_foldr_union.mp hxU
      exact (List.pairwise_cons.mp hpw).1 t ht x hx hxt
    have hval : (s ∪ ss.foldr (· ∪ ·) ∅).val =
        s.val + (ss.foldr (· ∪ ·) ∅).val := by
      rw [← Finset.disjUnion_eq_union s _ hdisj]
      rfl
    rw [List.map_cons, List.sum_cons, List.foldr_cons, hval,
      Multiset.map_add, ih (List.Pairwise.of_cons hpw)]

theorem sorted_join_coe {input : List Perimeter} :
    ∀ (parts : List (Finset Nat)),
    (↑((parts.map (sortedGroup input)).join) : Multiset Perimeter) =
      (parts.map (fun s =>
        Multiset.map (fun i => input.getD i default) s.val)).sum := by
  intro parts
  induction parts with
  | nil => rfl
  | cons s ss ih =>
    have h1 : ((s :: ss).map (sortedGroup input)).join =
        sortedGroup input s ++ (ss.map (sortedGroup input)).join := by
      simp [List.join]
    rw [h1, List.map_cons, List.sum_cons, ← ih, ← sortedGroup_coe]
    rfl

/-- C6: for every input list of perimeters and every road predicate,
`partition_by_predicate` returns groups (here exposed together with the
underlying index components): every input loop lands in exactly one group
(the components are pairwise disjoint and cover every index, and the
concatenation of the groups is a permutation of the input), loops connected
through predicate-passing shared roads land in the same group (each
component is closed under the filtered adjacency and pairwise connected
under its reflexive-transitive closure), and a loop with no predicate-passing
road shared with another loop forms a singleton component. -/
theorem C6_partition_correct (input : List Perimeter) (pred : Nat → Bool) :
    ∃ parts groups,
      partitionIndices input pred = some parts ∧
      partition_by_predicate input pred = some groups ∧
      groups = parts.map (sortedGroup input) ∧
      groups.join.Perm input ∧
      (∀ i, i < input.length → ∃ s ∈ parts, i ∈ s) ∧
      List.Pairwise (fun s t => ∀ x ∈ s, x ∉ t) parts ∧
      (∀ s ∈ parts, ∀ x ∈ s, ∀ j, PredAdjSpec input pred x j → j ∈ s) ∧
      (∀ s ∈ parts, ∀ x ∈ s, ∀ y ∈ s,
        Relation.ReflTransGen (PredAdjSpec input pred) x y) ∧
      (∀ i, i < input.length → (∀ j, j ≠ i → ¬ PredAdjSpec input pred i j) →
        ∀ s ∈ parts, i ∈ s → s = {i}) := by
  obtain ⟨parts, hp, h1, h2, h3, h4, h5, h6, h7⟩ :=
    @partitionsLoop_spec input pred
      (List.range input.length) ∅
      (fun s hs => List.mem_range.mp hs) (by simp)
  have hpi : partitionIndices input pred = some parts := by
    unfold partitionIndices
    exact hp
  have hcov : ∀ i, i < input.length → ∃ s ∈ parts, i ∈ s := by
    intro i hi
    rcases h7 i (List.mem_range.mpr hi) with hf | h
    · exact absurd hf (Finset.not_mem_empty i)
    · exact h
  have htg := takeGroups_spec parts ∅ h1 (by simp) h6
  have hU : parts.foldr (· ∪ ·) ∅ = Finset.range input.length := by
    ext x
    rw [mem_foldr_union, Finset.mem_range]
    constructor
    · rintro ⟨s, hs, hxs⟩
      exact h1 s hs x hxs
    · intro hx
      exact hcov x hx
  have hall : (availOf input (∅ ∪ parts.foldr (· ∪ ·) ∅)).all
      (fun o => o.isNone) = true := by
    apply availOf_all_none
    intro i hi
    rw [Finset.mem_union, hU, Finset.mem_range]
    exact Or.inr hi
  have hpbp : partition_by_predicate input pred =
      some (parts.map (sortedGroup input)) := by
    unfold partition_by_predicate
    simp only [hpi, Option.bind_eq_bind, Option.some_bind]
    rw [← availOf_empty, htg]
    simp only [Option.some_bind]
    rw [if_pos hall]
    rfl
  have hrangeval : (Finset.range input.length).val =
      ↑(List.range input.length) := by
    rw [Finset.range_val]
    rfl
  have hperm : (parts.map (sortedGroup input)).join.Perm input := by
    rw [← Multiset.coe_eq_coe, sorted_join_coe, parts_val_sum parts h6, hU,
      hrangeval, Multiset.map_coe, range_map_getD]
  have hloner : ∀ i, i < input.length →
      (∀ j, j ≠ i → ¬ PredAdjSpec input pred i j) →
      ∀ s ∈ parts, i ∈ s → s = {i} := by
    intro i hi hiso s hs his
    have hkey : ∀ x, Relation.ReflTransGen (PredAdjSpec input pred) i x →
        x = i := by
      intro x hx
      induction hx with
      | refl => rfl
      | tail hone hstep ih =>
        subst ih
        by_contra hne
        exact hiso _ hne hstep
    apply Finset.eq_singleton_iff_unique_mem.mpr
    exact ⟨his, fun x hx => hkey x (h3 s hs i his x hx)⟩
  exact ⟨parts, parts.map (sortedGroup input), hpi, hpbp, rfl, hperm, hcov,
    h6, h2, h3, hloner⟩

/-- Witness for C6: instantiating the partition theorem on the two loops
sharing road 0 with the always-true predicate yields a concrete successful
partition whose concatenated groups permute the input. -/
theorem C6_witness :
    ∃ parts groups,
      partitionIndices [exShare1, exShare2] (fun _ => true) = some parts ∧
      partition_by_predicate [exShare1, exShare2] (fun _ => true) =
        some groups ∧
      groups.join.Perm [exShare1, exShare2] := by
  obtain ⟨parts, groups, hpi, hpbp, _, hperm, _⟩ :=
    C6_partition_correct [exShare1, exShare2] (fun _ => true)
  exact ⟨parts, groups, hpi, hpbp, hperm⟩
